import Mathlib

/-!
Shallow embedding of the research-agent streaming execution pipeline
(`src/app/api/research/execute/stream/route.ts`, first document: the
`POST` handler) and of the client stream consumer's `step-end` handler
(`executePlanStream` in the plan/execute client component).

The server handler is modelled as a pure function from an environment
(request fields plus the outcomes of every remote call and the abort
signal's behaviour) to the list of SSE events it enqueues, in order.

Remote calls (`generateText`, `streamText`, `generateObject`, the
context-analysis `fetch`) are oracles: the environment records what each
returns or throws.  The abort signal is cooperative and monotone; the
handler reads `req.signal.aborted` at three places (loop top, per token,
after the loop), and a monotone sequence of boolean reads is exactly
characterized by an optional threshold `abortAt`: the k-th read returns
`true` iff `abortAt = some t` with `t ≤ k`.
-/

namespace Qual

/-- A retrieved source: `{title?: string, url: string}`. -/
structure Source where
  title : Option String
  url : String
deriving DecidableEq, Repr

/-- A plan step as consumed by the route (`expectedOutputs` is never read). -/
structure Step where
  title : String
  rationale : String
  queries : List String
deriving DecidableEq, Repr

/-- The final report object validated by `reportSchema`. -/
structure Report where
  title : String
  executiveSummary : List String
  keySections : List (String × List String)
  questionsToAsk : List String
  glossary : List (String × String)
  sources : List Source
deriving DecidableEq, Repr

/-- One SSE event, as serialized by `send({type: ...})`. -/
inductive Ev where
  | progress (current total : Nat)
  | stepStart (index : Nat) (title : String)
  | stepSources (index : Nat) (sources : List Source)
  | stepChunk (index : Nat) (text : String)
  | stepUsage (index : Nat) (usage : Nat)
  | stepEnd (index : Nat) (summary : String)
  | report (r : Report)
  | error (message : String)
  | done
deriving DecidableEq, Repr

/-- Outcome of one remote generation call: it returns a value, throws an
`AbortError`, or throws some other error carrying a message. -/
inductive CallOutcome (α : Type) where
  | ok (v : α)
  | abortErr
  | err (message : String)
deriving DecidableEq, Repr

/-- Environment of a single research step: the outcome of its
`generateText` search call, the token deltas its `streamText` stream
delivers, how the stream terminates after those deltas, and the value of
`summaryStream.usage` (none when absent). -/
structure StepEnv where
  search : CallOutcome (List Source)
  deltas : List String
  streamEnd : CallOutcome Unit
  usage : Option Nat
deriving DecidableEq, Repr

/-- Outcome of the context-analysis `fetch` sub-call: a successful JSON
body with an `analysis` string, a non-OK response (its `statusText`), or
a thrown error (its `message`; an `AbortError` is caught by the same
local `catch`, so it is just a message here). -/
inductive CtxOutcome where
  | ok (analysis : String)
  | httpErr (statusText : String)
  | fetchThrow (message : String)
deriving DecidableEq, Repr

/-- Request body plus oracle data for one run.  Optional string fields
use `""` for absent (matching JS truthiness of `undefined` and `""`). -/
structure Env where
  hasApiKey : Bool
  topic : String
  context : String
  goals : String
  clarifyingAnswers : String
  includeContextAnalysis : Bool
  contextFilesLen : Nat
  ctx : CtxOutcome
  steps : List Step
  stepEnvs : List StepEnv
  synth : CallOutcome Report
  abortAt : Option Nat
deriving DecidableEq, Repr

/-- Benign step environment used to totalize indexing. -/
def defaultStepEnv : StepEnv := ⟨CallOutcome.ok [], [], CallOutcome.ok (), none⟩

/-- The environment of step `i`. -/
def stepEnvOf (e : Env) (i : Nat) : StepEnv := e.stepEnvs.getD i defaultStepEnv

/-- Default step used to totalize indexing in theorem statements. -/
def defaultStep : Step := ⟨"", "", []⟩

/-- `req.signal.aborted` at the k-th cooperative check: monotone
threshold semantics. -/
def sigRead (a : Option Nat) (k : Nat) : Bool :=
  match a with
  | none => false
  | some t => decide (t ≤ k)

/-- `contextSteps`: `(includeContextAnalysis && contextFiles?.length) ? 1 : 0`. -/
def contextStepsOf (e : Env) : Nat :=
  if e.includeContextAnalysis && (e.contextFilesLen != 0) then 1 else 0

/-- JavaScript `Array.prototype.join(sep)`. -/
def joinSep (sep : String) : List String → String
  | [] => ""
  | [p] => p
  | p :: q :: ps => p ++ sep ++ joinSep sep (q :: ps)

/-- `[...parts].filter(Boolean).join("\n\n")`. -/
def joinParts (ps : List String) : String :=
  joinSep "\n\n" (ps.filter (fun p => p != ""))

/-- Concatenation of a list of strings (used for accumulated deltas). -/
def strJoin : List String → String
  | [] => ""
  | s :: ss => s ++ strJoin ss

/-- The context-analysis block of the search prompt. -/
def ctxSearchBlock (car : String) : String :=
  "**Internal Context Analysis Results:**\n" ++ car ++
    "\n\n**Research Focus:** Use this internal business context to guide external source collection. Prioritize sources that can validate, benchmark, or provide market intelligence relevant to the internal data patterns identified above."

/-- `searchPrompt` of the step loop, translated part by part. -/
def searchPrompt (topic ctx goals clar car : String) (step : Step) : String :=
  joinParts
    [ "You are gathering sources for: " ++ topic,
      if ctx = "" then "" else "Context: " ++ ctx,
      if goals = "" then "" else "Goals: " ++ goals,
      if clar = "" then "" else "Additional Information Provided: " ++ clar,
      if car = "" then "" else ctxSearchBlock car,
      "Current step: " ++ step.title,
      if step.queries = [] then "" else
        "Queries to consider:\n- " ++ joinSep "\n- " step.queries,
      "Instructions:\n- Use web search to find authoritative, up-to-date sources relevant to this step.\n- Prioritize high quality, recent, and authoritative references (documentation, standards, industry reports, reputable news).\n"
        ++ (if car = "" then "" else "- Focus on external market intelligence that can contextualize the internal business data insights.")
        ++ "\n- You will NOT output the summary here, only collect sources." ]

/-- The context-analysis block of the write prompt. -/
def ctxWriteBlock (car : String) : String :=
  "**Internal Business Context:**\n" ++ car ++
    "\n\n**Integration Requirement:** Connect external market research with the internal business data insights above. Validate internal patterns against market trends, benchmark performance, and identify strategic opportunities."

/-- `stepSpecificInstructions`: fixed three-tier policy keyed by step index. -/
def tierBlock (i : Nat) (topic : String) : String :=
  if i = 0 then
    "\n**Step 1 Focus - Analytical Foundation & Understanding:**\n- **First-Principles Approach**: Break down \"" ++ topic ++ "\" to its fundamental components and core principles\n- **Systems Context**: Define how \"" ++ topic ++ "\" fits within larger industry/market/technological systems\n- **Root Cause Analysis**: Identify what drives the emergence and evolution of \"" ++ topic ++ "\"\n- **Multiple Perspectives**: Analyze different stakeholder viewpoints and interpretations\n- **Critical Assessment**: Evaluate evidence quality and potential definitional biases\n- **Real-World Manifestation**: Provide concrete examples of how this concept materializes in practice"
  else if i = 1 then
    "\n**Step 2 Focus - Ecosystem Analysis & Practical Application:**\n- **Systems Mapping**: Map the interconnected ecosystem around \"" ++ topic ++ "\" (players, relationships, dependencies)\n- **Hypothesis Formation**: Based on Step 1, form testable hypotheses about market behavior or trends\n- **Stakeholder Analysis**: Identify key players, their incentives, and how they influence the system\n- **Value Chain Analysis**: Trace how value flows through the \"" ++ topic ++ "\" ecosystem\n- **Evidence Validation**: Test Step 1 hypotheses with real-world data and examples\n- **Implementation Patterns**: Analyze how theory translates to practical application across contexts"
  else
    "\n**Advanced Analytical Focus:**\n- **Pattern Recognition**: Identify recurring patterns, trends, and anomalies in \"" ++ topic ++ "\" data\n- **Causal Analysis**: Apply root cause analysis to understand why trends exist and what drives changes\n- **Scenario Planning**: Develop multiple plausible future scenarios based on current evidence\n- **Risk Assessment**: Systematically evaluate risks, uncertainties, and potential black swan events\n- **Competitive Dynamics**: Analyze how different players respond to market forces and each other\n- **Strategic Implications**: Connect findings to actionable strategic insights and decision frameworks\n- **Bias Check**: Actively look for cognitive biases, data limitations, and alternative explanations"

/-- One line of the formatted source reference list. -/
def sourceLine (s : Source) : String :=
  "- " ++ (match s.title with
            | some t => if t = "" then "" else t ++ " — "
            | none => "") ++ s.url

/-- `sourcesList`: formatted reference list or the empty-capture marker. -/
def sourcesListStr (sources : List Source) : String :=
  if sources = [] then "(no explicit sources captured)"
  else joinSep "\n" (sources.map sourceLine)

/-- The trailing analytical-framework / output-requirements block of the
write prompt, with its two context-conditional bullet lines. -/
def frameworkBlock (car : String) : String :=
  "**Analytical Framework:**\nApply professional analytical thinking throughout your research:\n- **Systems Thinking**: Consider this topic within larger interconnected systems and market dynamics\n- **Root Cause Analysis**: Look beyond surface-level symptoms to identify underlying drivers and causes\n- **First-Principles Thinking**: Break down complex concepts to fundamental truths, then build logical conclusions\n- **Critical Thinking Loop**: Observe data → Interpret patterns → Evaluate evidence → Draw conclusions → Review for bias\n- **Scientific Method**: Form hypotheses about trends/relationships, then validate with evidence from sources\n"
    ++ (if car = "" then "" else "- **Context Integration**: Continuously reference and build upon the internal business context analysis, using external research to validate, benchmark, and expand upon internal insights")
    ++ "\n\n**Output Requirements:**\n- **Use Markdown formatting** with headers (##), bullet points (-), bold (**text**), and emphasis (*text*)\n- Structure with clear analytical sections using ## headers\n- 8-12 well-researched bullet points organized under relevant headers\n- Include specific facts, figures, definitions, and current trends with proper context\n- Reference sources inline when citing facts (e.g., \"According to (Source: Source Title)...\")\n"
    ++ (if car = "" then "" else "- **Internal-External Integration**: For each finding, explicitly connect to internal business context where relevant, noting validation, contradictions, or gaps")
    ++ "\n- **Analytical Depth**: For each key point, explain the \"why\" and \"what this means\" implications\n- **Systems Perspective**: Connect findings to broader market forces, stakeholder impacts, and interdependencies\n- **Evidence-Based**: Support conclusions with data, cite methodology limitations where relevant\n- **Forward-Looking**: Include implications, potential scenarios, and strategic considerations\n- Avoid marketing language; prioritize rigorous analytical content"

/-- `writePrompt` of the step loop, translated part by part. -/
def writePrompt (topic ctx goals clar car : String) (step : Step) (i : Nat)
    (sources : List Source) : String :=
  joinParts
    [ "Write a comprehensive research summary for this step using proper Markdown formatting.",
      "Topic: " ++ topic,
      if ctx = "" then "" else "Context: " ++ ctx,
      if goals = "" then "" else "Goals: " ++ goals,
      if clar = "" then "" else "Additional Information Provided: " ++ clar,
      if car = "" then "" else ctxWriteBlock car,
      "Step: " ++ step.title,
      if step.rationale = "" then "" else "Why this step: " ++ step.rationale,
      tierBlock i topic,
      "Use the following sources as grounding (if any):\n" ++ sourcesListStr sources,
      frameworkBlock car ]

/-- A remote call issued by the handler, with the prompt where one is
built by the step loop. -/
inductive Call where
  | ctxFetch
  | search (i : Nat) (prompt : String)
  | write (i : Nat) (prompt : String)
  | synthesize
deriving DecidableEq, Repr

/-- One step's `StepResult` pushed into `collected`. -/
structure Collected where
  title : String
  summary : String
  sources : List Source
deriving DecidableEq, Repr

/-- An exception escaping the outer `try` block. -/
inductive Thrown where
  | abort
  | err (message : String)
deriving DecidableEq, Repr

/-- Result of the token-streaming `for await` loop: emitted chunk events,
updated read counter, the accumulator `full`, and whether the loop was
broken by the abort check. -/
structure TLoop where
  evs : List Ev
  k : Nat
  full : String
  broke : Bool
deriving DecidableEq, Repr

/-- The `for await (const delta of summaryStream.textStream)` loop:
checks the signal before consuming each delta, otherwise appends the
delta to `full` and emits a `step-chunk`. -/
def tokenLoop (a : Option Nat) (si : Nat) : List String → Nat → String → TLoop
  | [], k, full => ⟨[], k, full, false⟩
  | d :: ds, k, full =>
    if sigRead a k then ⟨[], k + 1, full, true⟩
    else
      let r := tokenLoop a si ds (k + 1) (full ++ d)
      ⟨Ev.stepChunk si d :: r.evs, r.k, r.full, r.broke⟩

/-- `step-usage` event, emitted when `summaryStream.usage` is present. -/
def usageEvs (se : StepEnv) (si : Nat) : List Ev :=
  match se.usage with
  | some u => [Ev.stepUsage si u]
  | none => []

/-- Result of one iteration of the step loop body. -/
structure BodyOut where
  evs : List Ev
  calls : List Call
  k : Nat
  item : Option Collected
  thrown : Option Thrown
deriving DecidableEq, Repr

/-- One iteration of the research-step loop (after the loop-top abort
check): progress, step-start, search call, step-sources, streamed
write-up, optional step-usage, step-end, and the push into `collected`.
A thrown remote error escapes to the outer catch. -/
def stepBody (e : Env) (cs total : Nat) (car : String) (step : Step) (i k : Nat) :
    BodyOut :=
  let se := stepEnvOf e i
  let si := cs + i
  let pre := [Ev.progress (cs + i + 1) total, Ev.stepStart si step.title]
  let sp := searchPrompt e.topic e.context e.goals e.clarifyingAnswers car step
  match se.search with
  | CallOutcome.abortErr => ⟨pre, [Call.search i sp], k, none, some Thrown.abort⟩
  | CallOutcome.err m => ⟨pre, [Call.search i sp], k, none, some (Thrown.err m)⟩
  | CallOutcome.ok sources =>
    let wp := writePrompt e.topic e.context e.goals e.clarifyingAnswers car step i sources
    let t := tokenLoop e.abortAt si se.deltas k ""
    let calls := [Call.search i sp, Call.write i wp]
    if t.broke then
      ⟨pre ++ [Ev.stepSources si sources] ++ t.evs ++ usageEvs se si
         ++ [Ev.stepEnd si t.full],
       calls, t.k, some ⟨step.title, t.full, sources⟩, none⟩
    else
      match se.streamEnd with
      | CallOutcome.ok _ =>
        ⟨pre ++ [Ev.stepSources si sources] ++ t.evs ++ usageEvs se si
           ++ [Ev.stepEnd si t.full],
         calls, t.k, some ⟨step.title, t.full, sources⟩, none⟩
      | CallOutcome.abortErr =>
        ⟨pre ++ [Ev.stepSources si sources] ++ t.evs, calls, t.k, none, some Thrown.abort⟩
      | CallOutcome.err m =>
        ⟨pre ++ [Ev.stepSources si sources] ++ t.evs, calls, t.k, none, some (Thrown.err m)⟩

/-- Result of the whole research-step loop. -/
structure LoopOut where
  evs : List Ev
  calls : List Call
  k : Nat
  acc : List Collected
  thrown : Option Thrown
deriving DecidableEq, Repr

/-- The `for (let i = 0; i < steps.length; i++)` loop with its loop-top
abort check (`if (req.signal.aborted) break`). -/
def loopPhase (e : Env) (cs total : Nat) (car : String) :
    List Step → Nat → Nat → List Collected → LoopOut
  | [], _, k, acc => ⟨[], [], k, acc, none⟩
  | step :: rest, i, k, acc =>
    if sigRead e.abortAt k then ⟨[], [], k + 1, acc, none⟩
    else
      let b := stepBody e cs total car step i (k + 1)
      match b.thrown with
      | some th => ⟨b.evs, b.calls, b.k, acc, some th⟩
      | none =>
        let r := loopPhase e cs total car rest (i + 1) b.k (acc ++ b.item.toList)
        ⟨b.evs ++ r.evs, b.calls ++ r.calls, r.k, r.acc, r.thrown⟩

/-- Title of the context-analysis pseudo-step. -/
def ctxTitle : String := "Context Analysis: Business Data Review"

/-- The error message produced by the context-analysis `catch` block, if
the context outcome is a failure. -/
def ctxErrMsg : CtxOutcome → Option String
  | CtxOutcome.ok _ => none
  | CtxOutcome.httpErr st =>
    some ("Context analysis error: Context analysis failed: " ++ st)
  | CtxOutcome.fetchThrow m => some ("Context analysis error: " ++ m)

/-- Result of the optional context-analysis phase. -/
structure CtxOut where
  evs : List Ev
  calls : List Call
  car : String
  acc : List Collected
deriving DecidableEq, Repr

/-- Step 0: context analysis, if enabled and files provided.  Any failure
of the sub-call is caught locally: the error message is streamed as the
step's chunk and summary and becomes `contextAnalysisResult`. -/
def ctxPhase (e : Env) (total : Nat) : CtxOut :=
  if e.includeContextAnalysis && (e.contextFilesLen != 0) then
    match e.ctx with
    | CtxOutcome.ok analysis =>
      ⟨[Ev.progress 1 total, Ev.stepStart 0 ctxTitle,
        Ev.stepChunk 0 analysis, Ev.stepEnd 0 analysis],
       [Call.ctxFetch], analysis, [⟨ctxTitle, analysis, []⟩]⟩
    | CtxOutcome.httpErr st =>
      let m := "Context analysis error: Context analysis failed: " ++ st
      ⟨[Ev.progress 1 total, Ev.stepStart 0 ctxTitle,
        Ev.stepChunk 0 m, Ev.stepEnd 0 m], [Call.ctxFetch], m, []⟩
    | CtxOutcome.fetchThrow msg =>
      let m := "Context analysis error: " ++ msg
      ⟨[Ev.progress 1 total, Ev.stepStart 0 ctxTitle,
        Ev.stepChunk 0 m, Ev.stepEnd 0 m], [Call.ctxFetch], m, []⟩
  else ⟨[], [], "", []⟩

/-- Title of the final synthesis pseudo-step. -/
def synthTitle : String := "Generating Executive Briefing"

/-- Summary text of the final synthesis `step-end`. -/
def synthSummary : String := "Executive briefing generated successfully"

/-- `for (const s of collected.flatMap(r => r.sources)) if (!unique.has(s.url)) unique.set(s.url, s)`
followed by `Array.from(unique.values())`: first-seen-wins
deduplication by URL, insertion order. -/
def dedupGo (acc : List Source) : List Source → List Source
  | [] => acc
  | s :: rest =>
    if acc.any (fun x => x.url == s.url) then dedupGo acc rest
    else dedupGo (acc ++ [s]) rest

/-- Deduplicate a source list by URL, keeping first occurrences in order. -/
def dedupByUrl (l : List Source) : List Source := dedupGo [] l

/-- The final-synthesis tail: progress, step-start, `generateObject`,
step-end, final progress, report (with deduplicated sources), done. -/
def synthPhase (e : Env) (cs n : Nat) (acc : List Collected) :
    List Ev × List Call × Option Thrown :=
  let fi := cs + n
  let uniq := dedupByUrl (acc.flatMap (fun r => r.sources))
  match e.synth with
  | CallOutcome.abortErr =>
    ([Ev.progress fi (fi + 1), Ev.stepStart fi synthTitle], [Call.synthesize],
     some Thrown.abort)
  | CallOutcome.err m =>
    ([Ev.progress fi (fi + 1), Ev.stepStart fi synthTitle], [Call.synthesize],
     some (Thrown.err m))
  | CallOutcome.ok r =>
    ([Ev.progress fi (fi + 1), Ev.stepStart fi synthTitle,
      Ev.stepEnd fi synthSummary,
      Ev.progress (fi + 1) (fi + 1),
      Ev.report { r with sources := uniq },
      Ev.done], [Call.synthesize], none)

/-- The body of the outer `try` block: precondition checks, context
phase, step loop, post-loop abort check, synthesis.  Returns the emitted
events, the remote calls issued, and the exception escaping to the outer
`catch` (if any). -/
def tryBody (e : Env) : List Ev × List Call × Option Thrown :=
  if !e.hasApiKey then
    ([Ev.error "OPENAI_API_KEY required to execute research", Ev.done], [], none)
  else if e.topic = "" then
    ([Ev.error "Missing topic", Ev.done], [], none)
  else
    let cs := contextStepsOf e
    let n := e.steps.length
    let total := max 1 (cs + n)
    let c := ctxPhase e total
    let l := loopPhase e cs total c.car e.steps 0 0 c.acc
    match l.thrown with
    | some th => (c.evs ++ l.evs, c.calls ++ l.calls, some th)
    | none =>
      if sigRead e.abortAt l.k then
        (c.evs ++ l.evs ++ [Ev.done], c.calls ++ l.calls, none)
      else
        let s := synthPhase e cs n l.acc
        (c.evs ++ l.evs ++ s.1, c.calls ++ l.calls ++ s.2.1, s.2.2)

/-- The outer `catch`: an `AbortError` yields a bare `done`, any other
error yields `error` (with JS `e?.message || "Execution failed"`) then
`done`. -/
def catchEvs : Option Thrown → List Ev
  | none => []
  | some Thrown.abort => [Ev.done]
  | some (Thrown.err m) =>
    [Ev.error (if m = "" then "Execution failed" else m), Ev.done]

/-- The full event stream and call log of one `POST` run. -/
def runFull (e : Env) : List Ev × List Call :=
  let t := tryBody e
  (t.1 ++ catchEvs t.2.2, t.2.1)

/-- The full event stream of one `POST` run. -/
def runPOST (e : Env) : List Ev := (runFull e).1

/-- The remote calls issued during one `POST` run. -/
def runCalls (e : Env) : List Call := (runFull e).2

/-! ### Trace observations -/

/-- The `total` field of a progress event. -/
def evTotal : Ev → Option Nat
  | Ev.progress _ t => some t
  | _ => none

/-- The `(current, total)` pairs of the progress events of a trace. -/
def progPairs (tr : List Ev) : List (Nat × Nat) :=
  tr.filterMap (fun ev => match ev with
    | Ev.progress c t => some (c, t)
    | _ => none)

/-- The `current` fields of the progress events of a trace, in order. -/
def currents (tr : List Ev) : List Nat := (progPairs tr).map Prod.fst

/-- `current ≤ total`, checked on progress events (vacuous elsewhere). -/
def progLe : Ev → Bool
  | Ev.progress c t => decide (c ≤ t)
  | _ => true

/-- The text of a `step-chunk` event for index `i`. -/
def chunkTextAt (i : Nat) : Ev → Option String
  | Ev.stepChunk j t => if j = i then some t else none
  | _ => none

/-- Concatenation of all `step-chunk.text` for index `i`, in emission order. -/
def chunksConcat (tr : List Ev) (i : Nat) : String :=
  strJoin (tr.filterMap (chunkTextAt i))

/-- Recognizer for `step-start` events. -/
def isStepStart : Ev → Bool
  | Ev.stepStart _ _ => true
  | _ => false

/-- The index of the final synthesis pseudo-step: `contextSteps + researchSteps`. -/
def finalIdx (e : Env) : Nat := contextStepsOf e + e.steps.length

/-- The step index of an indexed event (none for progress/report/error/done). -/
def evIdx : Ev → Option Nat
  | Ev.stepStart i _ => some i
  | Ev.stepSources i _ => some i
  | Ev.stepChunk i _ => some i
  | Ev.stepUsage i _ => some i
  | Ev.stepEnd i _ => some i
  | _ => none

/-! ### Client stream consumer (`executePlanStream` handlers) -/

/-- The client's per-step record. -/
structure ClientStep where
  title : String
  summary : String
  sources : List Source
deriving DecidableEq, Repr

/-- The fallback record `{title: `Step ${index+1}`, summary: "", sources: []}`. -/
def defaultClientStep (index : Nat) : ClientStep :=
  ⟨"Step " ++ toString (index + 1), "", []⟩

/-- The `step-end` handler: `summary = evt.summary ?? ""`, then
`next[index] = {...existing, summary: summary || existing.summary}`.
The sparse `stepResults` array is modelled as a map from index. -/
def onStepEnd (stepResults : Nat → Option ClientStep) (index : Nat)
    (summaryField : Option String) : Nat → Option ClientStep :=
  let summary := summaryField.getD ""
  let existing := (stepResults index).getD (defaultClientStep index)
  fun j =>
    if j = index then
      some { existing with
             summary := if summary = "" then existing.summary else summary }
    else stepResults j

/-! ### Concrete environments used as failing inputs and witnesses -/

/-- A trivial report object returned by the synthesis oracle. -/
def rep0 : Report := ⟨"T", [], [], [], [], []⟩

/-- A step environment whose search succeeds with `srcs` and whose
stream delivers `ds` then ends cleanly. -/
def okSE (ds : List String) (srcs : List Source) : StepEnv :=
  ⟨CallOutcome.ok srcs, ds, CallOutcome.ok (), none⟩

/-- Two research steps, no context analysis, everything succeeds, no
abort: the progress totals change from 2 to 3 mid-run. -/
def envC1 : Env :=
  ⟨true, "t", "", "", "", false, 0, CtxOutcome.ok "", [⟨"S1", "", []⟩, ⟨"S2", "", []⟩],
   [okSE ["x", "y"] [], okSE ["z"] []], CallOutcome.ok rep0, none⟩

/-- Zero steps, no context analysis, success: the synthesis step-end has
a fixed summary and no chunks. -/
def envC3 : Env :=
  ⟨true, "t", "", "", "", false, 0, CtxOutcome.ok "", [], [],
   CallOutcome.ok rep0, none⟩

/-- One step streaming `["a","b","c"]`; the abort signal fires at the
third cooperative check, i.e. during the token loop before `"b"`. -/
def envC4 : Env :=
  ⟨true, "t", "", "", "", false, 0, CtxOutcome.ok "", [⟨"S1", "", []⟩],
   [okSE ["a", "b", "c"] []], CallOutcome.ok rep0, some 2⟩

/-- One research step, no context analysis, full success. -/
def envC5 : Env :=
  ⟨true, "t", "", "", "", false, 0, CtxOutcome.ok "", [⟨"S1", "", []⟩],
   [okSE ["a"] []], CallOutcome.ok rep0, none⟩

/-- Client state with an accumulated partial summary `"abc"` at index 0. -/
def srC9 : Nat → Option ClientStep :=
  fun j => if j = 0 then some ⟨"T", "abc", []⟩ else none

/-- Two research steps whose searches return overlapping source lists
`[a, b]` and `[a, c]` (the claim's concrete dedup instance). -/
def envC8 : Env :=
  ⟨true, "t", "", "", "", false, 0, CtxOutcome.ok "", [⟨"S1", "", []⟩, ⟨"S2", "", []⟩],
   [okSE ["x"] [⟨some "A", "a"⟩, ⟨none, "b"⟩],
    okSE ["y"] [⟨some "A2", "a"⟩, ⟨none, "c"⟩]],
   CallOutcome.ok rep0, none⟩

/-- Three research steps; the abort signal fires at the third cooperative
check, during step 0's token loop: after step 0 no further step starts. -/
def envC7 : Env :=
  ⟨true, "t", "", "", "", false, 0, CtxOutcome.ok "", [⟨"S1", "", []⟩, ⟨"S2", "", []⟩, ⟨"S3", "", []⟩],
   [okSE ["a", "b"] [], okSE ["c"] [], okSE [] []],
   CallOutcome.ok rep0, some 2⟩

/-- Context analysis enabled with one file; the context sub-call returns
a non-OK response; one research step follows and succeeds. -/
def envC10 : Env :=
  ⟨true, "t", "", "", "", true, 1, CtxOutcome.httpErr "Bad Gateway", [⟨"S1", "", []⟩],
   [okSE ["a"] [⟨some "A", "u1"⟩]], CallOutcome.ok rep0, none⟩

/-! ### Closed forms used in theorem statements -/

/-- The sources returned by a step's search call (empty unless it succeeds). -/
def searchSources (se : StepEnv) : List Source :=
  match se.search with
  | CallOutcome.ok s => s
  | _ => []

/-- Both remote calls of a step succeed (search returns, stream ends cleanly). -/
def stepOkB (se : StepEnv) : Bool :=
  (match se.search with
   | CallOutcome.ok _ => true
   | _ => false)
    && (match se.streamEnd with
        | CallOutcome.ok _ => true
        | _ => false)

/-- Number of `req.signal.aborted` reads one fully-run step consumes:
one at the loop top plus one per delivered delta. -/
def readCost (se : StepEnv) : Nat := 1 + se.deltas.length

/-- Reads consumed by a list of consecutive fully-run steps starting at
ordinal `i`. -/
def segReads (e : Env) : List Step → Nat → Nat
  | [], _ => 0
  | _ :: rest, i => readCost (stepEnvOf e i) + segReads e rest (i + 1)

/-- Reads consumed before step `p`'s loop-top check, when steps `0..p-1`
ran to completion. -/
def readsUpTo (e : Env) (p : Nat) : Nat := segReads e (e.steps.take p) 0

/-- Events a research step or the context phase may emit (everything
except `report`, `error` and `done`). -/
def isStepEv : Ev → Bool
  | Ev.report _ => false
  | Ev.error _ => false
  | Ev.done => false
  | _ => true

/-- The events of step `i` when it runs to completion without abort. -/
def stepSegEvs (e : Env) (cs total : Nat) (i : Nat) (step : Step) : List Ev :=
  let se := stepEnvOf e i
  let si := cs + i
  [Ev.progress (cs + i + 1) total, Ev.stepStart si step.title,
   Ev.stepSources si (searchSources se)]
    ++ se.deltas.map (Ev.stepChunk si) ++ usageEvs se si
    ++ [Ev.stepEnd si (strJoin se.deltas)]

/-- The remote calls of step `i` when it runs to completion. -/
def stepSegCalls (e : Env) (car : String) (i : Nat) (step : Step) : List Call :=
  [Call.search i (searchPrompt e.topic e.context e.goals e.clarifyingAnswers car step),
   Call.write i (writePrompt e.topic e.context e.goals e.clarifyingAnswers car step i
      (searchSources (stepEnvOf e i)))]

/-- The `collected` record of step `i` when it runs to completion. -/
def stepItem (e : Env) (i : Nat) (step : Step) : Collected :=
  ⟨step.title, strJoin (stepEnvOf e i).deltas, searchSources (stepEnvOf e i)⟩

/-- Events of a list of consecutive fully-run steps starting at ordinal `i`. -/
def fullSegs (e : Env) (cs total : Nat) : List Step → Nat → List Ev
  | [], _ => []
  | s :: rest, i => stepSegEvs e cs total i s ++ fullSegs e cs total rest (i + 1)

/-- Calls of a list of consecutive fully-run steps starting at ordinal `i`. -/
def fullCalls (e : Env) (car : String) : List Step → Nat → List Call
  | [], _ => []
  | s :: rest, i => stepSegCalls e car i s ++ fullCalls e car rest (i + 1)

/-- `collected` records of consecutive fully-run steps starting at `i`. -/
def fullItems (e : Env) : List Step → Nat → List Collected
  | [], _ => []
  | s :: rest, i => stepItem e i s :: fullItems e rest (i + 1)

/-- Concatenation of the step-sources lists of consecutive steps. -/
def stepSourcesList (e : Env) : List Step → Nat → List Source
  | [], _ => []
  | _ :: rest, i => searchSources (stepEnvOf e i) ++ stepSourcesList e rest (i + 1)

/-- All sources occurring across all steps' `step-sources` lists, in order. -/
def allStepSources (e : Env) : List Source := stepSourcesList e e.steps 0

/-- `needle` occurs contiguously inside `hay`. -/
def hasSub (needle hay : String) : Prop := ∃ a b, hay = a ++ needle ++ b

/-- The `total` computed at pipeline start: `Math.max(1, contextSteps + researchSteps)`. -/
def totalOf (e : Env) : Nat := max 1 (contextStepsOf e + e.steps.length)

/-- The context phase of a run, at the run's `total`. -/
def ctxOut (e : Env) : CtxOut := ctxPhase e (totalOf e)

/-- The research-step loop of a run, started at read counter 0 with the
context phase's `contextAnalysisResult` and `collected`. -/
def loopOut (e : Env) : LoopOut :=
  loopPhase e (contextStepsOf e) (totalOf e) (ctxOut e).car e.steps 0 0 (ctxOut e).acc

/-- The synthesis tail of a run. -/
def synthOut (e : Env) : List Ev × List Call × Option Thrown :=
  synthPhase e (contextStepsOf e) e.steps.length (loopOut e).acc

/-- The events of step `i` when the abort signal fires during its token
loop after `m` deltas were delivered: the remaining deltas are dropped,
and the step-end carries the partial accumulator. -/
def brokenSegEvs (e : Env) (cs total : Nat) (i m : Nat) (step : Step) : List Ev :=
  let se := stepEnvOf e i
  let si := cs + i
  [Ev.progress (cs + i + 1) total, Ev.stepStart si step.title,
   Ev.stepSources si (searchSources se)]
    ++ (se.deltas.take m).map (Ev.stepChunk si) ++ usageEvs se si
    ++ [Ev.stepEnd si (strJoin (se.deltas.take m))]

/-!
## Theorems

First the concrete failing-input / counterexample theorems, then the
lemma layers (signal, strings, token loop, step body, loop, phases), then
the per-claim theorems.
-/

/-- C1 failing input: with two research steps and no context analysis the
per-step progress events carry `total = 2` while the synthesis progress
events carry `total = 3`; the denominator is not `contextSteps + steps + 1`
throughout and changes mid-run. -/
theorem c1_total_changes_on_failing_input :
    (runPOST envC1).filterMap evTotal = [2, 2, 3, 3]
      ∧ ((runPOST envC1).filterMap evTotal).all (fun t => t == 2 + 1) = false := by
  decide

/-- C3 counterexample: on a successful zero-step run the synthesis
step-end for index 0 carries the fixed text "Executive briefing generated
successfully" although no step-chunk for index 0 was emitted, so the
concatenation of chunk texts (the empty string) differs from the step-end
summary. -/
theorem c3_counterexample :
    Ev.stepEnd 0 synthSummary ∈ runPOST envC3
      ∧ chunksConcat (runPOST envC3) 0 = ""
      ∧ synthSummary ≠ "" := by
  decide

/-- C4 counterexample: the abort signal fires during step 0's token loop
(after delta "a", before "b"), yet the run still emits `step-end(0, "a")`
with the partial accumulator before the final `done`. -/
theorem c4_counterexample :
    runPOST envC4 =
      [Ev.progress 1 1, Ev.stepStart 0 "S1", Ev.stepSources 0 [],
       Ev.stepChunk 0 "a", Ev.stepEnd 0 "a", Ev.done]
      ∧ Ev.stepEnd 0 "a" ∈ runPOST envC4 := by
  decide

/-- C5 counterexample: a successful one-step run with no context analysis
emits two step-start events (the research step and the final synthesis),
not `activeSteps + contextSteps = 1`. -/
theorem c5_counterexample :
    (runPOST envC5).countP isStepStart = 2
      ∧ contextStepsOf envC5 + envC5.steps.length = 1
      ∧ (2 : Nat) ≠ 1 := by
  decide

/-- C9 counterexample: on `step-end(0, "")` with accumulated chunk text
"abc", the consumer keeps "abc" (because of `summary || existing.summary`)
instead of overwriting with the event's empty summary. -/
theorem c9_counterexample :
    ((onStepEnd srC9 0 (some "")) 0).map ClientStep.summary = some "abc"
      ∧ ("abc" : String) ≠ "" := by
  decide

end Qual
namespace Qual

theorem sigRead_mono {a : Option Nat} {k j : Nat} (h : sigRead a k = true)
    (hkj : k ≤ j) : sigRead a j = true := by
  cases a with
  | none => simp [sigRead] at h
  | some t =>
    simp only [sigRead, decide_eq_true_eq] at h ⊢
    omega

theorem sigRead_false_mono {a : Option Nat} {k j : Nat} (h : sigRead a j = false)
    (hkj : k ≤ j) : sigRead a k = false := by
  cases a with
  | none => simp [sigRead]
  | some t =>
    simp only [sigRead, decide_eq_false_iff_not, decide_eq_true_eq] at h ⊢
    omega

theorem strJoin_append (a b : List String) :
    strJoin (a ++ b) = strJoin a ++ strJoin b := by
  induction a with
  | nil => simp [strJoin, String.empty_append]
  | cons s ss ih => simp [strJoin, ih, String.append_assoc]

theorem data_eq_nil_iff (s : String) : s.data = [] ↔ s = "" := by
  cases s with
  | mk d =>
    constructor
    · intro h
      rw [show d = [] from h]
    · intro h
      exact congrArg String.data h

theorem append_ne_empty_left {a : String} (b : String) (h : a ≠ "") :
    a ++ b ≠ "" := by
  intro hab
  apply h
  have hd := congrArg String.data hab
  rw [String.data_append] at hd
  have : a.data = [] := (List.append_eq_nil.mp hd).1
  exact (data_eq_nil_iff a).mp this

theorem chunksConcat_append (a b : List Ev) (i : Nat) :
    chunksConcat (a ++ b) i = chunksConcat a i ++ chunksConcat b i := by
  simp [chunksConcat, List.filterMap_append, strJoin_append]

theorem chunksConcat_nil_of_none {l : List Ev} {i : Nat}
    (h : ∀ ev ∈ l, chunkTextAt i ev = none) : chunksConcat l i = "" := by
  have hfm : l.filterMap (chunkTextAt i) = [] := List.filterMap_eq_nil_iff.mpr h
  simp [chunksConcat, hfm, strJoin]

theorem chunkTextAt_none_of_idx {ev : Ev} {i : Nat}
    (h : ∀ j, evIdx ev = some j → j ≠ i) : chunkTextAt i ev = none := by
  cases ev with
  | stepChunk j t =>
    have hji : j ≠ i := h j rfl
    simp [chunkTextAt, hji]
  | progress c t => rfl
  | stepStart j s => rfl
  | stepSources j s => rfl
  | stepUsage j u => rfl
  | stepEnd j s => rfl
  | report r => rfl
  | error m => rfl
  | done => rfl

theorem progPairs_append (a b : List Ev) :
    progPairs (a ++ b) = progPairs a ++ progPairs b := by
  simp [progPairs, List.filterMap_append]

theorem hasSub_trans {x y z : String} (h1 : hasSub x y) (h2 : hasSub y z) :
    hasSub x z := by
  obtain ⟨a, b, hab⟩ := h1
  obtain ⟨c, d, hcd⟩ := h2
  exact ⟨c ++ a, b ++ d, by rw [hcd, hab]; simp [String.append_assoc]⟩

theorem joinSep_hasSub {sep p : String} {l : List String} (h : p ∈ l) :
    ∃ a b, joinSep sep l = a ++ p ++ b := by
  induction l with
  | nil => cases h
  | cons x xs ih =>
    rcases List.mem_cons.mp h with rfl | hmem
    · cases xs with
      | nil =>
        exact ⟨"", "", by simp [joinSep, String.append_empty, String.empty_append]⟩
      | cons y ys =>
        exact ⟨"", sep ++ joinSep sep (y :: ys),
          by simp [joinSep, String.append_assoc, String.empty_append]⟩
    · obtain ⟨a, b, hab⟩ := ih hmem
      cases xs with
      | nil => cases hmem
      | cons y ys =>
        refine ⟨x ++ sep ++ a, b, ?_⟩
        show x ++ sep ++ joinSep sep (y :: ys) = x ++ sep ++ a ++ p ++ b
        rw [hab]
        simp [String.append_assoc]

theorem joinParts_hasSub {p : String} {ps : List String} (hmem : p ∈ ps)
    (hne : p ≠ "") : hasSub p (joinParts ps) := by
  have hf : p ∈ ps.filter (fun q => q != "") :=
    List.mem_filter.mpr ⟨hmem, by simp [hne]⟩
  exact joinSep_hasSub hf

theorem ctxSearchBlock_ne_empty (car : String) : ctxSearchBlock car ≠ "" := by
  apply append_ne_empty_left
  apply append_ne_empty_left
  decide

theorem hasSub_ctxSearchBlock (car : String) : hasSub car (ctxSearchBlock car) := by
  exact ⟨"**Internal Context Analysis Results:**\n",
    "\n\n**Research Focus:** Use this internal business context to guide external source collection. Prioritize sources that can validate, benchmark, or provide market intelligence relevant to the internal data patterns identified above.", rfl⟩

theorem searchPrompt_hasSub_car {topic ctx goals clar car : String} {step : Step}
    (h : car ≠ "") : hasSub car (searchPrompt topic ctx goals clar car step) := by
  apply hasSub_trans (hasSub_ctxSearchBlock car)
  apply joinParts_hasSub _ (ctxSearchBlock_ne_empty car)
  simp [searchPrompt, h]

theorem ctxWriteBlock_ne_empty (car : String) : ctxWriteBlock car ≠ "" := by
  apply append_ne_empty_left
  apply append_ne_empty_left
  decide

theorem hasSub_ctxWriteBlock (car : String) : hasSub car (ctxWriteBlock car) :=
  ⟨"**Internal Business Context:**\n",
   "\n\n**Integration Requirement:** Connect external market research with the internal business data insights above. Validate internal patterns against market trends, benchmark performance, and identify strategic opportunities.", rfl⟩

theorem writePrompt_hasSub_car {topic ctx goals clar car : String} {step : Step}
    {i : Nat} {sources : List Source} (h : car ≠ "") :
    hasSub car (writePrompt topic ctx goals clar car step i sources) := by
  apply hasSub_trans (hasSub_ctxWriteBlock car)
  apply joinParts_hasSub _ (ctxWriteBlock_ne_empty car)
  simp [writePrompt, h]

theorem tokenLoop_shape (a : Option Nat) (si : Nat) (ds : List String) :
    ∀ (k : Nat) (full : String),
      ∃ m, m ≤ ds.length
        ∧ (tokenLoop a si ds k full).evs = (ds.take m).map (Ev.stepChunk si)
        ∧ (tokenLoop a si ds k full).full = full ++ strJoin (ds.take m)
        ∧ ((tokenLoop a si ds k full).broke = false →
            m = ds.length ∧ (tokenLoop a si ds k full).k = k + m)
        ∧ ((tokenLoop a si ds k full).broke = true →
            (tokenLoop a si ds k full).k = k + m + 1 ∧ sigRead a (k + m) = true) := by
  induction ds with
  | nil =>
    intro k full
    exact ⟨0, by simp [tokenLoop, strJoin, String.append_empty]⟩
  | cons d ds ih =>
    intro k full
    by_cases hs : sigRead a k = true
    · refine ⟨0, by omega, ?_, ?_, ?_, ?_⟩
      · simp [tokenLoop, hs]
      · simp [tokenLoop, hs, strJoin, String.append_empty]
      · simp [tokenLoop, hs]
      · intro _
        simp [tokenLoop, hs]
    · have hs' : sigRead a k = false := by
        cases hb : sigRead a k
        · rfl
        · exact absurd hb hs
      obtain ⟨m, hm, hevs, hfull, hnb, hb⟩ := ih (k + 1) (full ++ d)
      refine ⟨m + 1, by simpa using hm, ?_, ?_, ?_, ?_⟩
      · simp [tokenLoop, hs', hevs]
      · simp [tokenLoop, hs', hfull, strJoin, String.append_assoc]
      · intro hbr
        simp [tokenLoop, hs'] at hbr ⊢
        obtain ⟨h1, h2⟩ := hnb hbr
        constructor
        · omega
        · omega
      · intro hbr
        simp [tokenLoop, hs'] at hbr ⊢
        obtain ⟨h1, h2⟩ := hb hbr
        constructor
        · omega
        · have : k + 1 + m = k + (m + 1) := by omega
          rw [← this]
          exact h2

theorem tokenLoop_no_fire (a : Option Nat) (si : Nat) (ds : List String) :
    ∀ (k : Nat) (full : String),
      (∀ j, j < ds.length → sigRead a (k + j) = false) →
      tokenLoop a si ds k full =
        ⟨ds.map (Ev.stepChunk si), k + ds.length, full ++ strJoin ds, false⟩ := by
  induction ds with
  | nil =>
    intro k full _
    simp [tokenLoop, strJoin, String.append_empty]
  | cons d ds ih =>
    intro k full h
    have h0 : sigRead a k = false := by simpa using h 0 (by simp)
    have hrec := ih (k + 1) (full ++ d) (fun j hj => by
      have := h (j + 1) (by simpa using Nat.succ_lt_succ hj)
      simpa [Nat.add_assoc, Nat.add_comm 1 j] using this)
    simp [tokenLoop, h0, hrec, strJoin, String.append_assoc]
    omega

theorem tokenLoop_fire (si : Nat) (ds : List String) :
    ∀ (t k : Nat) (full : String),
      k ≤ t → t - k < ds.length →
      tokenLoop (some t) si ds k full =
        ⟨(ds.take (t - k)).map (Ev.stepChunk si), t + 1,
         full ++ strJoin (ds.take (t - k)), true⟩ := by
  induction ds with
  | nil =>
    intro t k full hk hlt
    simp at hlt
  | cons d ds ih =>
    intro t k full hk hlt
    by_cases hkt : t = k
    · have hs : sigRead (some t) k = true := by
        simp [sigRead]
        omega
      subst hkt
      simp [tokenLoop, hs, strJoin, String.append_empty]
    · have hklt : k < t := by omega
      have hs : sigRead (some t) k = false := by
        simp [sigRead]
        omega
      have hrec := ih t (k + 1) (full ++ d) (by omega) (by simp at hlt ⊢; omega)
      have htk : t - k = (t - (k + 1)) + 1 := by omega
      simp [tokenLoop, hs, hrec, htk, strJoin, String.append_assoc]

theorem usageEvs_isStepEv (se : StepEnv) (si : Nat) :
    ∀ ev ∈ usageEvs se si, isStepEv ev = true := by
  cases hu : se.usage <;> simp [usageEvs, hu, isStepEv]

theorem usageEvs_idx (se : StepEnv) (si : Nat) :
    ∀ ev ∈ usageEvs se si, ∀ j, evIdx ev = some j → j = si := by
  cases hu : se.usage <;> simp [usageEvs, hu, evIdx]

theorem body_isStepEv (e : Env) (cs total : Nat) (car : String) (step : Step)
    (i k : Nat) :
    ∀ ev ∈ (stepBody e cs total car step i k).evs, isStepEv ev = true := by
  intro ev hev
  cases hse : (stepEnvOf e i).search with
  | abortErr =>
    simp [stepBody, hse] at hev
    rcases hev with rfl | rfl <;> rfl
  | err m =>
    simp [stepBody, hse] at hev
    rcases hev with rfl | rfl <;> rfl
  | ok srcs =>
    obtain ⟨m, _, hevs, _, _, _⟩ :=
      tokenLoop_shape e.abortAt (cs + i) (stepEnvOf e i).deltas k ""
    cases hbr : (tokenLoop e.abortAt (cs + i) (stepEnvOf e i).deltas k "").broke with
    | true =>
      simp [stepBody, hse, hbr, hevs] at hev
      rcases hev with rfl | rfl | rfl | hch | hu | rfl
      · rfl
      · rfl
      · rfl
      · obtain ⟨d, _, rfl⟩ := List.mem_map.mp (List.take_subset _ _ hch)
        rfl
      · exact usageEvs_isStepEv _ _ ev hu
      · rfl
    | false =>
      cases hend : (stepEnvOf e i).streamEnd with
      | ok u =>
        simp [stepBody, hse, hbr, hend, hevs] at hev
        rcases hev with rfl | rfl | rfl | hch | hu | rfl
        · rfl
        · rfl
        · rfl
        · obtain ⟨d, _, rfl⟩ := List.mem_map.mp (List.take_subset _ _ hch)
          rfl
        · exact usageEvs_isStepEv _ _ ev hu
        · rfl
      | abortErr =>
        simp [stepBody, hse, hbr, hend, hevs] at hev
        rcases hev with rfl | rfl | rfl | hch
        · rfl
        · rfl
        · rfl
        · obtain ⟨d, _, rfl⟩ := List.mem_map.mp (List.take_subset _ _ hch)
          rfl
      | err m =>
        simp [stepBody, hse, hbr, hend, hevs] at hev
        rcases hev with rfl | rfl | rfl | hch
        · rfl
        · rfl
        · rfl
        · obtain ⟨d, _, rfl⟩ := List.mem_map.mp (List.take_subset _ _ hch)
          rfl


theorem chunks_filterMap_map (si : Nat) (l : List String) :
    List.filterMap (chunkTextAt si) (l.map (Ev.stepChunk si)) = l := by
  induction l with
  | nil => rfl
  | cons d l ih => simp [List.filterMap_cons, chunkTextAt, ih]

theorem chunksConcat_usageEvs (se : StepEnv) (si j : Nat) :
    List.filterMap (chunkTextAt j) (usageEvs se si) = [] := by
  cases hu : se.usage <;> simp [usageEvs, hu, chunkTextAt]

theorem body_idx (e : Env) (cs total : Nat) (car : String) (step : Step)
    (i k : Nat) :
    ∀ ev ∈ (stepBody e cs total car step i k).evs, ∀ j, evIdx ev = some j →
      j = cs + i := by
  intro ev hev j hj
  cases hse : (stepEnvOf e i).search with
  | abortErr =>
    simp [stepBody, hse] at hev
    rcases hev with rfl | rfl <;> simp [evIdx] at hj <;> omega
  | err m =>
    simp [stepBody, hse] at hev
    rcases hev with rfl | rfl <;> simp [evIdx] at hj <;> omega
  | ok srcs =>
    obtain ⟨m, _, hevs, _, _, _⟩ :=
      tokenLoop_shape e.abortAt (cs + i) (stepEnvOf e i).deltas k ""
    have hchunk : ∀ (hch : ev ∈ List.take m
        (List.map (Ev.stepChunk (cs + i)) (stepEnvOf e i).deltas)), j = cs + i := by
      intro hch
      obtain ⟨d, _, rfl⟩ := List.mem_map.mp (List.take_subset _ _ hch)
      simp [evIdx] at hj
      omega
    cases hbr : (tokenLoop e.abortAt (cs + i) (stepEnvOf e i).deltas k "").broke with
    | true =>
      simp [stepBody, hse, hbr, hevs] at hev
      rcases hev with rfl | rfl | rfl | hch | hu | rfl
      · simp [evIdx] at hj
      · simp [evIdx] at hj; omega
      · simp [evIdx] at hj; omega
      · exact hchunk hch
      · exact usageEvs_idx _ _ ev hu j hj
      · simp [evIdx] at hj; omega
    | false =>
      cases hend : (stepEnvOf e i).streamEnd with
      | ok u =>
        simp [stepBody, hse, hbr, hend, hevs] at hev
        rcases hev with rfl | rfl | rfl | hch | hu | rfl
        · simp [evIdx] at hj
        · simp [evIdx] at hj; omega
        · simp [evIdx] at hj; omega
        · exact hchunk hch
        · exact usageEvs_idx _ _ ev hu j hj
        · simp [evIdx] at hj; omega
      | abortErr =>
        simp [stepBody, hse, hbr, hend, hevs] at hev
        rcases hev with rfl | rfl | rfl | hch
        · simp [evIdx] at hj
        · simp [evIdx] at hj; omega
        · simp [evIdx] at hj; omega
        · exact hchunk hch
      | err m =>
        simp [stepBody, hse, hbr, hend, hevs] at hev
        rcases hev with rfl | rfl | rfl | hch
        · simp [evIdx] at hj
        · simp [evIdx] at hj; omega
        · simp [evIdx] at hj; omega
        · exact hchunk hch

theorem stepEnd_not_mem_usageEvs (se : StepEnv) (si j : Nat) (s : String) :
    Ev.stepEnd j s ∉ usageEvs se si := by
  cases hu : se.usage <;> simp [usageEvs, hu]

theorem chunks_filterMap_take_map (si m : Nat) (l : List String) :
    List.filterMap (chunkTextAt si) (List.take m (List.map (Ev.stepChunk si) l)) =
      List.take m l := by
  rw [← List.map_take, chunks_filterMap_map]

theorem body_stepEnd (e : Env) (cs total : Nat) (car : String) (step : Step)
    (i k : Nat) {j : Nat} {s : String}
    (hmem : Ev.stepEnd j s ∈ (stepBody e cs total car step i k).evs) :
    j = cs + i ∧ s = chunksConcat (stepBody e cs total car step i k).evs (cs + i) := by
  cases hse : (stepEnvOf e i).search with
  | abortErr => simp [stepBody, hse] at hmem
  | err m => simp [stepBody, hse] at hmem
  | ok srcs =>
    obtain ⟨m, _, hevs, hfull, _, _⟩ :=
      tokenLoop_shape e.abortAt (cs + i) (stepEnvOf e i).deltas k ""
    cases hbr : (tokenLoop e.abortAt (cs + i) (stepEnvOf e i).deltas k "").broke with
    | true =>
      simp [stepBody, hse, hbr, hevs] at hmem ⊢
      rcases hmem with hch | hu | ⟨hj, hs⟩
      · obtain ⟨d, _, hd⟩ := List.mem_map.mp (List.take_subset _ _ hch)
        simp at hd
      · exact absurd hu (stepEnd_not_mem_usageEvs _ _ _ _)
      · subst hj
        refine ⟨rfl, ?_⟩
        rw [hs, hfull, String.empty_append]
        simp [chunksConcat, List.filterMap_cons, List.filterMap_append, chunkTextAt,
              chunks_filterMap_take_map, chunksConcat_usageEvs, strJoin_append,
              strJoin, String.append_empty]
    | false =>
      cases hend : (stepEnvOf e i).streamEnd with
      | ok u =>
        simp [stepBody, hse, hbr, hend, hevs] at hmem ⊢
        rcases hmem with hch | hu | ⟨hj, hs⟩
        · obtain ⟨d, _, hd⟩ := List.mem_map.mp (List.take_subset _ _ hch)
          simp at hd
        · exact absurd hu (stepEnd_not_mem_usageEvs _ _ _ _)
        · subst hj
          refine ⟨rfl, ?_⟩
          rw [hs, hfull, String.empty_append]
          simp [chunksConcat, List.filterMap_cons, List.filterMap_append, chunkTextAt,
                chunks_filterMap_take_map, chunksConcat_usageEvs, strJoin_append,
                strJoin, String.append_empty]
      | abortErr =>
        simp [stepBody, hse, hbr, hend, hevs] at hmem
        obtain ⟨d, _, hd⟩ := List.mem_map.mp (List.take_subset _ _ hmem)
        simp at hd
      | err m =>
        simp [stepBody, hse, hbr, hend, hevs] at hmem
        obtain ⟨d, _, hd⟩ := List.mem_map.mp (List.take_subset _ _ hmem)
        simp at hd

theorem progPairs_chunks (si : Nat) (l : List String) :
    progPairs (List.map (Ev.stepChunk si) l) = [] := by
  apply List.filterMap_eq_nil_iff.mpr
  intro ev hev
  obtain ⟨d, _, rfl⟩ := List.mem_map.mp hev
  rfl

theorem progPairs_usageEvs (se : StepEnv) (si : Nat) :
    progPairs (usageEvs se si) = [] := by
  cases hu : se.usage <;> simp [usageEvs, hu, progPairs]

theorem body_k_ge (e : Env) (cs total : Nat) (car : String) (step : Step)
    (i k : Nat) : k ≤ (stepBody e cs total car step i k).k := by
  cases hse : (stepEnvOf e i).search with
  | abortErr => simp [stepBody, hse]
  | err m => simp [stepBody, hse]
  | ok srcs =>
    obtain ⟨m, _, _, _, hnb, hb⟩ :=
      tokenLoop_shape e.abortAt (cs + i) (stepEnvOf e i).deltas k ""
    cases hbr : (tokenLoop e.abortAt (cs + i) (stepEnvOf e i).deltas k "").broke with
    | true =>
      obtain ⟨hk, _⟩ := hb hbr
      simp [stepBody, hse, hbr, hk]
      omega
    | false =>
      obtain ⟨_, hk⟩ := hnb hbr
      cases hend : (stepEnvOf e i).streamEnd <;>
        simp [stepBody, hse, hbr, hend, hk] <;> omega

theorem progPairs_nil : progPairs [] = [] := rfl

theorem progPairs_cons_progress (c t : Nat) (l : List Ev) :
    progPairs (Ev.progress c t :: l) = (c, t) :: progPairs l := by
  simp [progPairs]

theorem progPairs_cons_stepStart (i : Nat) (s : String) (l : List Ev) :
    progPairs (Ev.stepStart i s :: l) = progPairs l := by
  simp [progPairs]

theorem progPairs_cons_stepSources (i : Nat) (s : List Source) (l : List Ev) :
    progPairs (Ev.stepSources i s :: l) = progPairs l := by
  simp [progPairs]

theorem progPairs_cons_stepChunk (i : Nat) (s : String) (l : List Ev) :
    progPairs (Ev.stepChunk i s :: l) = progPairs l := by
  simp [progPairs]

theorem progPairs_cons_stepUsage (i u : Nat) (l : List Ev) :
    progPairs (Ev.stepUsage i u :: l) = progPairs l := by
  simp [progPairs]

theorem progPairs_cons_stepEnd (i : Nat) (s : String) (l : List Ev) :
    progPairs (Ev.stepEnd i s :: l) = progPairs l := by
  simp [progPairs]

theorem progPairs_cons_report (r : Report) (l : List Ev) :
    progPairs (Ev.report r :: l) = progPairs l := by
  simp [progPairs]

theorem progPairs_cons_error (m : String) (l : List Ev) :
    progPairs (Ev.error m :: l) = progPairs l := by
  simp [progPairs]

theorem progPairs_cons_done (l : List Ev) :
    progPairs (Ev.done :: l) = progPairs l := by
  simp [progPairs]

theorem body_prog (e : Env) (cs total : Nat) (car : String) (step : Step)
    (i k : Nat) :
    progPairs (stepBody e cs total car step i k).evs = [(cs + i + 1, total)] := by
  cases hse : (stepEnvOf e i).search with
  | abortErr =>
    simp only [stepBody, hse]
    simp [progPairs_cons_progress, progPairs_cons_stepStart, progPairs_nil]
  | err m =>
    simp only [stepBody, hse]
    simp [progPairs_cons_progress, progPairs_cons_stepStart, progPairs_nil]
  | ok srcs =>
    obtain ⟨m, _, hevs, _, _, _⟩ :=
      tokenLoop_shape e.abortAt (cs + i) (stepEnvOf e i).deltas k ""
    cases hbr : (tokenLoop e.abortAt (cs + i) (stepEnvOf e i).deltas k "").broke with
    | true =>
      simp only [stepBody, hse, hbr, hevs, if_true]
      simp only [List.cons_append, List.nil_append, List.append_assoc]
      rw [progPairs_cons_progress, progPairs_cons_stepStart, progPairs_cons_stepSources,
          progPairs_append, progPairs_chunks, progPairs_append, progPairs_usageEvs,
          progPairs_cons_stepEnd, progPairs_nil]
      simp
    | false =>
      cases hend : (stepEnvOf e i).streamEnd with
      | ok u =>
        simp only [stepBody, hse, hbr, hend, hevs, Bool.false_eq_true, if_false]
        simp only [List.cons_append, List.nil_append, List.append_assoc]
        rw [progPairs_cons_progress, progPairs_cons_stepStart, progPairs_cons_stepSources,
            progPairs_append, progPairs_chunks, progPairs_append, progPairs_usageEvs,
            progPairs_cons_stepEnd, progPairs_nil]
        simp
      | abortErr =>
        simp only [stepBody, hse, hbr, hend, hevs, Bool.false_eq_true, if_false]
        simp only [List.cons_append, List.nil_append, List.append_assoc]
        rw [progPairs_cons_progress, progPairs_cons_stepStart, progPairs_cons_stepSources,
            progPairs_chunks]
      | err m =>
        simp only [stepBody, hse, hbr, hend, hevs, Bool.false_eq_true, if_false]
        simp only [List.cons_append, List.nil_append, List.append_assoc]
        rw [progPairs_cons_progress, progPairs_cons_stepStart, progPairs_cons_stepSources,
            progPairs_chunks]

theorem body_clean_or_broke (e : Env) (cs total : Nat) (car : String) (step : Step)
    (i k : Nat) (hth : (stepBody e cs total car step i k).thrown = none) :
    ((stepBody e cs total car step i k).evs = stepSegEvs e cs total i step
      ∧ (stepBody e cs total car step i k).calls = stepSegCalls e car i step
      ∧ (stepBody e cs total car step i k).k = k + (stepEnvOf e i).deltas.length
      ∧ (stepBody e cs total car step i k).item = some (stepItem e i step))
    ∨ (∃ kb, (stepBody e cs total car step i k).k = kb + 1
        ∧ sigRead e.abortAt kb = true ∧ k ≤ kb) := by
  cases hse : (stepEnvOf e i).search with
  | abortErr => simp [stepBody, hse] at hth
  | err m => simp [stepBody, hse] at hth
  | ok srcs =>
    obtain ⟨m, _, hevs, hfull, hnb, hb⟩ :=
      tokenLoop_shape e.abortAt (cs + i) (stepEnvOf e i).deltas k ""
    cases hbr : (tokenLoop e.abortAt (cs + i) (stepEnvOf e i).deltas k "").broke with
    | true =>
      obtain ⟨hk, hsig⟩ := hb hbr
      right
      refine ⟨k + m, ?_, hsig, by omega⟩
      simp [stepBody, hse, hbr, hk]
    | false =>
      obtain ⟨hm, hk⟩ := hnb hbr
      cases hend : (stepEnvOf e i).streamEnd with
      | ok u =>
        left
        subst hm
        have htake : List.take (stepEnvOf e i).deltas.length (stepEnvOf e i).deltas
            = (stepEnvOf e i).deltas := List.take_length _
        rw [htake] at hevs hfull
        refine ⟨?_, ?_, ?_, ?_⟩
        · simp [stepBody, hse, hbr, hend, hevs, hfull, stepSegEvs, searchSources,
                String.empty_append]
        · simp [stepBody, hse, hbr, hend, stepSegCalls, searchSources]
        · simp [stepBody, hse, hbr, hend, hk]
        · simp [stepBody, hse, hbr, hend, hfull, stepItem, searchSources,
                String.empty_append]
      | abortErr => simp [stepBody, hse, hbr, hend] at hth
      | err m => simp [stepBody, hse, hbr, hend] at hth

theorem body_ok_no_fire (e : Env) (cs total : Nat) (car : String) (step : Step)
    (i k : Nat) (hok : stepOkB (stepEnvOf e i) = true)
    (hnf : ∀ j, j < (stepEnvOf e i).deltas.length → sigRead e.abortAt (k + j) = false) :
    stepBody e cs total car step i k =
      ⟨stepSegEvs e cs total i step, stepSegCalls e car i step,
       k + (stepEnvOf e i).deltas.length, some (stepItem e i step), none⟩ := by
  cases hse : (stepEnvOf e i).search with
  | abortErr => simp [stepOkB, hse] at hok
  | err m => simp [stepOkB, hse] at hok
  | ok srcs =>
    cases hend : (stepEnvOf e i).streamEnd with
    | abortErr => simp [stepOkB, hse, hend] at hok
    | err m => simp [stepOkB, hse, hend] at hok
    | ok u =>
      have htl := tokenLoop_no_fire e.abortAt (cs + i) (stepEnvOf e i).deltas k "" hnf
      simp [stepBody, hse, hend, htl, stepSegEvs, stepSegCalls, stepItem, searchSources,
            String.empty_append]

theorem body_fire (e : Env) (cs total : Nat) (car : String) (step : Step)
    (i k t : Nat) {srcs : List Source}
    (hse : (stepEnvOf e i).search = CallOutcome.ok srcs)
    (ha : e.abortAt = some t) (hk : k ≤ t)
    (hlt : t - k < (stepEnvOf e i).deltas.length) :
    stepBody e cs total car step i k =
      ⟨[Ev.progress (cs + i + 1) total, Ev.stepStart (cs + i) step.title,
        Ev.stepSources (cs + i) srcs]
         ++ ((stepEnvOf e i).deltas.take (t - k)).map (Ev.stepChunk (cs + i))
         ++ usageEvs (stepEnvOf e i) (cs + i)
         ++ [Ev.stepEnd (cs + i) (strJoin ((stepEnvOf e i).deltas.take (t - k)))],
       [Call.search i (searchPrompt e.topic e.context e.goals e.clarifyingAnswers car step),
        Call.write i (writePrompt e.topic e.context e.goals e.clarifyingAnswers car step i srcs)],
       t + 1, some ⟨step.title, strJoin ((stepEnvOf e i).deltas.take (t - k)), srcs⟩,
       none⟩ := by
  have htl := tokenLoop_fire (cs + i) (stepEnvOf e i).deltas t k "" hk hlt
  simp [stepBody, hse, ha, htl, String.empty_append]

theorem loop_isStepEv (e : Env) (cs total : Nat) (car : String) :
    ∀ (rest : List Step) (i k : Nat) (acc : List Collected),
      ∀ ev ∈ (loopPhase e cs total car rest i k acc).evs, isStepEv ev = true := by
  intro rest
  induction rest with
  | nil => intro i k acc ev hev; simp [loopPhase] at hev
  | cons step rest ih =>
    intro i k acc ev hev
    by_cases hs : sigRead e.abortAt k = true
    · simp [loopPhase, hs] at hev
    · have hs' : sigRead e.abortAt k = false := by
        cases hb : sigRead e.abortAt k
        · rfl
        · exact absurd hb hs
      cases hbth : (stepBody e cs total car step i (k + 1)).thrown with
      | some th =>
        simp [loopPhase, hs', hbth] at hev
        exact body_isStepEv e cs total car step i (k + 1) ev hev
      | none =>
        simp [loopPhase, hs', hbth] at hev
        rcases hev with hev | hev
        · exact body_isStepEv e cs total car step i (k + 1) ev hev
        · exact ih (i + 1) _ _ ev hev

theorem loop_k_ge (e : Env) (cs total : Nat) (car : String) :
    ∀ (rest : List Step) (i k : Nat) (acc : List Collected),
      k ≤ (loopPhase e cs total car rest i k acc).k := by
  intro rest
  induction rest with
  | nil => intro i k acc; simp [loopPhase]
  | cons step rest ih =>
    intro i k acc
    by_cases hs : sigRead e.abortAt k = true
    · simp [loopPhase, hs]
    · have hs' : sigRead e.abortAt k = false := by
        cases hb : sigRead e.abortAt k
        · rfl
        · exact absurd hb hs
      have hbk := body_k_ge e cs total car step i (k + 1)
      cases hbth : (stepBody e cs total car step i (k + 1)).thrown with
      | some th =>
        simp [loopPhase, hs', hbth]
        omega
      | none =>
        have hrk := ih (i + 1) (stepBody e cs total car step i (k + 1)).k
          (acc ++ (stepBody e cs total car step i (k + 1)).item.toList)
        simp [loopPhase, hs', hbth]
        omega

theorem loop_idx_lb (e : Env) (cs total : Nat) (car : String) :
    ∀ (rest : List Step) (i k : Nat) (acc : List Collected),
      ∀ ev ∈ (loopPhase e cs total car rest i k acc).evs,
        ∀ j, evIdx ev = some j → cs + i ≤ j := by
  intro rest
  induction rest with
  | nil => intro i k acc ev hev; simp [loopPhase] at hev
  | cons step rest ih =>
    intro i k acc ev hev j hj
    by_cases hs : sigRead e.abortAt k = true
    · simp [loopPhase, hs] at hev
    · have hs' : sigRead e.abortAt k = false := by
        cases hb : sigRead e.abortAt k
        · rfl
        · exact absurd hb hs
      cases hbth : (stepBody e cs total car step i (k + 1)).thrown with
      | some th =>
        simp [loopPhase, hs', hbth] at hev
        have := body_idx e cs total car step i (k + 1) ev hev j hj
        omega
      | none =>
        simp [loopPhase, hs', hbth] at hev
        rcases hev with hev | hev
        · have := body_idx e cs total car step i (k + 1) ev hev j hj
          omega
        · have := ih (i + 1) _ _ ev hev j hj
          omega

theorem chunksConcat_nil_of_idx_ne {l : List Ev} {i : Nat}
    (h : ∀ ev ∈ l, ∀ j, evIdx ev = some j → j ≠ i) : chunksConcat l i = "" := by
  apply chunksConcat_nil_of_none
  intro ev hev
  exact chunkTextAt_none_of_idx (h ev hev)

theorem loop_stepEnd (e : Env) (cs total : Nat) (car : String) :
    ∀ (rest : List Step) (i k : Nat) (acc : List Collected) (j : Nat) (s : String),
      Ev.stepEnd j s ∈ (loopPhase e cs total car rest i k acc).evs →
        s = chunksConcat (loopPhase e cs total car rest i k acc).evs j := by
  intro rest
  induction rest with
  | nil => intro i k acc j s hmem; simp [loopPhase] at hmem
  | cons step rest ih =>
    intro i k acc j s hmem
    by_cases hs : sigRead e.abortAt k = true
    · simp [loopPhase, hs] at hmem
    · have hs' : sigRead e.abortAt k = false := by
        cases hb : sigRead e.abortAt k
        · rfl
        · exact absurd hb hs
      cases hbth : (stepBody e cs total car step i (k + 1)).thrown with
      | some th =>
        have hevs : (loopPhase e cs total car (step :: rest) i k acc).evs =
            (stepBody e cs total car step i (k + 1)).evs := by
          simp [loopPhase, hs', hbth]
        rw [hevs] at hmem ⊢
        obtain ⟨hj, hcc⟩ := body_stepEnd e cs total car step i (k + 1) hmem
        rw [hj, hcc]
      | none =>
        have hevs : (loopPhase e cs total car (step :: rest) i k acc).evs =
            (stepBody e cs total car step i (k + 1)).evs ++
              (loopPhase e cs total car rest (i + 1)
                (stepBody e cs total car step i (k + 1)).k
                (acc ++ (stepBody e cs total car step i (k + 1)).item.toList)).evs := by
          simp [loopPhase, hs', hbth]
        rw [hevs] at hmem ⊢
        rw [chunksConcat_append]
        rcases List.mem_append.mp hmem with hb | hr
        · obtain ⟨hj, hcc⟩ := body_stepEnd e cs total car step i (k + 1) hb
          have hrec0 : chunksConcat (loopPhase e cs total car rest (i + 1)
              (stepBody e cs total car step i (k + 1)).k
              (acc ++ (stepBody e cs total car step i (k + 1)).item.toList)).evs j = "" := by
            apply chunksConcat_nil_of_idx_ne
            intro ev hev q hq
            have := loop_idx_lb e cs total car rest (i + 1) _ _ ev hev q hq
            omega
          rw [hj] at hrec0 ⊢
          rw [hrec0, hcc, String.append_empty]
        · have hrec := ih (i + 1) _ _ j s hr
          have hj : cs + i + 1 ≤ j := by
            have := loop_idx_lb e cs total car rest (i + 1) _ _ _ hr j rfl
            omega
          have hb0 : chunksConcat (stepBody e cs total car step i (k + 1)).evs j = "" := by
            apply chunksConcat_nil_of_idx_ne
            intro ev hev q hq
            have := body_idx e cs total car step i (k + 1) ev hev q hq
            omega
          rw [hb0, hrec, String.empty_append]

theorem loop_final_false (e : Env) (cs total : Nat) (car : String) :
    ∀ (rest : List Step) (i k : Nat) (acc : List Collected),
      (loopPhase e cs total car rest i k acc).thrown = none →
      sigRead e.abortAt (loopPhase e cs total car rest i k acc).k = false →
      loopPhase e cs total car rest i k acc =
        ⟨fullSegs e cs total rest i, fullCalls e car rest i, k + segReads e rest i,
         acc ++ fullItems e rest i, none⟩ := by
  intro rest
  induction rest with
  | nil =>
    intro i k acc _ _
    simp [loopPhase, fullSegs, fullCalls, segReads, fullItems]
  | cons step rest ih =>
    intro i k acc hth hfin
    by_cases hs : sigRead e.abortAt k = true
    · exfalso
      have hk1 : (loopPhase e cs total car (step :: rest) i k acc).k = k + 1 := by
        simp [loopPhase, hs]
      rw [hk1] at hfin
      have := sigRead_mono hs (Nat.le_succ k)
      rw [this] at hfin
      cases hfin
    · have hs' : sigRead e.abortAt k = false := by
        cases hb : sigRead e.abortAt k
        · rfl
        · exact absurd hb hs
      cases hbth : (stepBody e cs total car step i (k + 1)).thrown with
      | some th =>
        exfalso
        have : (loopPhase e cs total car (step :: rest) i k acc).thrown = some th := by
          simp [loopPhase, hs', hbth]
        rw [this] at hth
        cases hth
      | none =>
        have hlevs : loopPhase e cs total car (step :: rest) i k acc =
            ⟨(stepBody e cs total car step i (k + 1)).evs ++
               (loopPhase e cs total car rest (i + 1)
                 (stepBody e cs total car step i (k + 1)).k
                 (acc ++ (stepBody e cs total car step i (k + 1)).item.toList)).evs,
             (stepBody e cs total car step i (k + 1)).calls ++
               (loopPhase e cs total car rest (i + 1)
                 (stepBody e cs total car step i (k + 1)).k
                 (acc ++ (stepBody e cs total car step i (k + 1)).item.toList)).calls,
             (loopPhase e cs total car rest (i + 1)
               (stepBody e cs total car step i (k + 1)).k
               (acc ++ (stepBody e cs total car step i (k + 1)).item.toList)).k,
             (loopPhase e cs total car rest (i + 1)
               (stepBody e cs total car step i (k + 1)).k
               (acc ++ (stepBody e cs total car step i (k + 1)).item.toList)).acc,
             (loopPhase e cs total car rest (i + 1)
               (stepBody e cs total car step i (k + 1)).k
               (acc ++ (stepBody e cs total car step i (k + 1)).item.toList)).thrown⟩ := by
          simp [loopPhase, hs', hbth]
        rw [hlevs] at hth hfin ⊢
        simp only at hth hfin
        rcases body_clean_or_broke e cs total car step i (k + 1) hbth with
          ⟨hbevs, hbcalls, hbk, hbitem⟩ | ⟨kb, hbk, hsig, hkb⟩
        · have hrec := ih (i + 1) (stepBody e cs total car step i (k + 1)).k
            (acc ++ (stepBody e cs total car step i (k + 1)).item.toList) hth hfin
          rw [hrec]
          rw [hbevs, hbcalls, hbk, hbitem]
          simp [fullSegs, fullCalls, fullItems, segReads, readCost, Option.toList,
                List.append_assoc]
          omega
        · exfalso
          have hge := loop_k_ge e cs total car rest (i + 1)
            (stepBody e cs total car step i (k + 1)).k
            (acc ++ (stepBody e cs total car step i (k + 1)).item.toList)
          have : sigRead e.abortAt (loopPhase e cs total car rest (i + 1)
              (stepBody e cs total car step i (k + 1)).k
              (acc ++ (stepBody e cs total car step i (k + 1)).item.toList)).k = true :=
            sigRead_mono hsig (by omega)
          rw [this] at hfin
          cases hfin

theorem loop_ok_front (e : Env) (cs total : Nat) (car : String) :
    ∀ (pre post : List Step) (i k : Nat) (acc : List Collected),
      (∀ q, q < pre.length → stepOkB (stepEnvOf e (i + q)) = true) →
      (∀ kq, kq < k + segReads e pre i → sigRead e.abortAt kq = false) →
      loopPhase e cs total car (pre ++ post) i k acc =
        ⟨fullSegs e cs total pre i ++
           (loopPhase e cs total car post (i + pre.length)
             (k + segReads e pre i) (acc ++ fullItems e pre i)).evs,
         fullCalls e car pre i ++
           (loopPhase e cs total car post (i + pre.length)
             (k + segReads e pre i) (acc ++ fullItems e pre i)).calls,
         (loopPhase e cs total car post (i + pre.length)
           (k + segReads e pre i) (acc ++ fullItems e pre i)).k,
         (loopPhase e cs total car post (i + pre.length)
           (k + segReads e pre i) (acc ++ fullItems e pre i)).acc,
         (loopPhase e cs total car post (i + pre.length)
           (k + segReads e pre i) (acc ++ fullItems e pre i)).thrown⟩ := by
  intro pre
  induction pre with
  | nil =>
    intro post i k acc _ _
    simp [fullSegs, fullCalls, fullItems, segReads]
  | cons step pre ih =>
    intro post i k acc hok hnf
    have hcost : 1 ≤ readCost (stepEnvOf e i) := by simp [readCost]
    have hs' : sigRead e.abortAt k = false := by
      apply hnf
      simp [segReads]
      omega
    have hok0 : stepOkB (stepEnvOf e i) = true := by
      have := hok 0 (by simp)
      simpa using this
    have hbody := body_ok_no_fire e cs total car step i (k + 1) hok0 (by
      intro j hj
      apply hnf
      simp [segReads, readCost]
      omega)
    have hrec := ih post (i + 1) (k + 1 + (stepEnvOf e i).deltas.length)
      (acc ++ [stepItem e i step])
      (by
        intro q hq
        have := hok (q + 1) (by simpa using Nat.succ_lt_succ hq)
        have harr : i + (q + 1) = i + 1 + q := by omega
        rw [harr] at this
        exact this)
      (by
        intro kq hkq
        apply hnf
        simp [segReads, readCost]
        omega)
    show loopPhase e cs total car ((step :: pre) ++ post) i k acc = _
    have hcons : (step :: pre) ++ post = step :: (pre ++ post) := rfl
    rw [hcons]
    have hunfold : loopPhase e cs total car (step :: (pre ++ post)) i k acc =
        ⟨(stepBody e cs total car step i (k + 1)).evs ++
           (loopPhase e cs total car (pre ++ post) (i + 1)
             (stepBody e cs total car step i (k + 1)).k
             (acc ++ (stepBody e cs total car step i (k + 1)).item.toList)).evs,
         (stepBody e cs total car step i (k + 1)).calls ++
           (loopPhase e cs total car (pre ++ post) (i + 1)
             (stepBody e cs total car step i (k + 1)).k
             (acc ++ (stepBody e cs total car step i (k + 1)).item.toList)).calls,
         (loopPhase e cs total car (pre ++ post) (i + 1)
           (stepBody e cs total car step i (k + 1)).k
           (acc ++ (stepBody e cs total car step i (k + 1)).item.toList)).k,
         (loopPhase e cs total car (pre ++ post) (i + 1)
           (stepBody e cs total car step i (k + 1)).k
           (acc ++ (stepBody e cs total car step i (k + 1)).item.toList)).acc,
         (loopPhase e cs total car (pre ++ post) (i + 1)
           (stepBody e cs total car step i (k + 1)).k
           (acc ++ (stepBody e cs total car step i (k + 1)).item.toList)).thrown⟩ := by
      simp [loopPhase, hs', hbody]
    rw [hunfold, hbody]
    simp only [Option.toList]
    rw [hrec]
    have harg1 : i + (step :: pre).length = i + 1 + pre.length := by
      simp
      omega
    have harg2 : k + segReads e (step :: pre) i =
        k + 1 + (stepEnvOf e i).deltas.length + segReads e pre (i + 1) := by
      simp [segReads, readCost]
      omega
    have harg3 : acc ++ fullItems e (step :: pre) i =
        acc ++ [stepItem e i step] ++ fullItems e pre (i + 1) := by
      simp [fullItems]
    rw [harg1, harg2, harg3]
    simp [fullSegs, fullCalls, List.append_assoc]

theorem loop_after_fire (e : Env) (cs total : Nat) (car : String) (t : Nat)
    (ha : e.abortAt = some t) :
    ∀ (post : List Step) (i k : Nat) (acc : List Collected), t < k →
      (loopPhase e cs total car post i k acc).evs = []
        ∧ (loopPhase e cs total car post i k acc).calls = []
        ∧ (loopPhase e cs total car post i k acc).acc = acc
        ∧ (loopPhase e cs total car post i k acc).thrown = none
        ∧ sigRead e.abortAt (loopPhase e cs total car post i k acc).k = true := by
  intro post i k acc hk
  cases post with
  | nil =>
    refine ⟨by simp [loopPhase], by simp [loopPhase], by simp [loopPhase],
      by simp [loopPhase], ?_⟩
    have : (loopPhase e cs total car [] i k acc).k = k := by simp [loopPhase]
    rw [this, ha]
    simp [sigRead]
    omega
  | cons step post =>
    have hs : sigRead e.abortAt k = true := by
      rw [ha]
      simp [sigRead]
      omega
    refine ⟨by simp [loopPhase, hs], by simp [loopPhase, hs], by simp [loopPhase, hs],
      by simp [loopPhase, hs], ?_⟩
    have : (loopPhase e cs total car (step :: post) i k acc).k = k + 1 := by
      simp [loopPhase, hs]
    rw [this, ha]
    simp [sigRead]
    omega

theorem loop_fire_step (e : Env) (cs total : Nat) (car : String) (step : Step)
    (post : List Step) (i k t : Nat) (acc : List Collected) {srcs : List Source}
    (ha : e.abortAt = some t)
    (hse : (stepEnvOf e i).search = CallOutcome.ok srcs)
    (hk : k < t) (hlt : t < k + 1 + (stepEnvOf e i).deltas.length) :
    (loopPhase e cs total car (step :: post) i k acc).evs =
        [Ev.progress (cs + i + 1) total, Ev.stepStart (cs + i) step.title,
         Ev.stepSources (cs + i) srcs]
          ++ ((stepEnvOf e i).deltas.take (t - (k + 1))).map (Ev.stepChunk (cs + i))
          ++ usageEvs (stepEnvOf e i) (cs + i)
          ++ [Ev.stepEnd (cs + i) (strJoin ((stepEnvOf e i).deltas.take (t - (k + 1))))]
      ∧ (loopPhase e cs total car (step :: post) i k acc).calls =
          [Call.search i (searchPrompt e.topic e.context e.goals e.clarifyingAnswers car step),
           Call.write i (writePrompt e.topic e.context e.goals e.clarifyingAnswers car step i srcs)]
      ∧ (loopPhase e cs total car (step :: post) i k acc).acc =
          acc ++ [⟨step.title, strJoin ((stepEnvOf e i).deltas.take (t - (k + 1))), srcs⟩]
      ∧ (loopPhase e cs total car (step :: post) i k acc).thrown = none
      ∧ sigRead e.abortAt (loopPhase e cs total car (step :: post) i k acc).k = true := by
  have hs' : sigRead e.abortAt k = false := by
    rw [ha]
    simp [sigRead]
    omega
  have hbody := body_fire e cs total car step i (k + 1) t hse ha (by omega) (by omega)
  have hafter := loop_after_fire e cs total car t ha post (i + 1) (t + 1)
    (acc ++ [⟨step.title, strJoin ((stepEnvOf e i).deltas.take (t - (k + 1))), srcs⟩])
    (by omega)
  obtain ⟨ha1, ha2, ha3, ha4, ha5⟩ := hafter
  have hunfold : ∀ r : LoopOut,
      loopPhase e cs total car (step :: post) i k acc =
        ⟨(stepBody e cs total car step i (k + 1)).evs ++
           (loopPhase e cs total car post (i + 1)
             (stepBody e cs total car step i (k + 1)).k
             (acc ++ (stepBody e cs total car step i (k + 1)).item.toList)).evs,
         (stepBody e cs total car step i (k + 1)).calls ++
           (loopPhase e cs total car post (i + 1)
             (stepBody e cs total car step i (k + 1)).k
             (acc ++ (stepBody e cs total car step i (k + 1)).item.toList)).calls,
         (loopPhase e cs total car post (i + 1)
           (stepBody e cs total car step i (k + 1)).k
           (acc ++ (stepBody e cs total car step i (k + 1)).item.toList)).k,
         (loopPhase e cs total car post (i + 1)
           (stepBody e cs total car step i (k + 1)).k
           (acc ++ (stepBody e cs total car step i (k + 1)).item.toList)).acc,
         (loopPhase e cs total car post (i + 1)
           (stepBody e cs total car step i (k + 1)).k
           (acc ++ (stepBody e cs total car step i (k + 1)).item.toList)).thrown⟩ := by
    intro r
    have hbth : (stepBody e cs total car step i (k + 1)).thrown = none := by
      rw [hbody]
    simp [loopPhase, hs', hbth]
  rw [hunfold ⟨[], [], 0, [], none⟩, hbody]
  simp only [Option.toList]
  refine ⟨?_, ?_, ?_, ?_, ?_⟩
  · simp only [ha1, List.append_nil]
  · simp only [ha2, List.append_nil]
  · simpa using ha3
  · simpa using ha4
  · simpa using ha5

theorem ctx_disabled (e : Env) (total : Nat)
    (h : (e.includeContextAnalysis && (e.contextFilesLen != 0)) = false) :
    ctxPhase e total = ⟨[], [], "", []⟩ := by
  simp [ctxPhase, h]

theorem ctx_enabled_evs (e : Env) (total : Nat)
    (h : (e.includeContextAnalysis && (e.contextFilesLen != 0)) = true) :
    (ctxPhase e total).evs =
      [Ev.progress 1 total, Ev.stepStart 0 ctxTitle,
       Ev.stepChunk 0 (ctxPhase e total).car, Ev.stepEnd 0 (ctxPhase e total).car]
      ∧ (ctxPhase e total).calls = [Call.ctxFetch] := by
  cases hc : e.ctx <;> simp [ctxPhase, h, hc]

theorem ctx_isStepEv (e : Env) (total : Nat) :
    ∀ ev ∈ (ctxPhase e total).evs, isStepEv ev = true := by
  by_cases h : (e.includeContextAnalysis && (e.contextFilesLen != 0)) = true
  · obtain ⟨hevs, _⟩ := ctx_enabled_evs e total h
    rw [hevs]
    intro ev hev
    simp at hev
    rcases hev with rfl | rfl | rfl | rfl <;> rfl
  · have h' : (e.includeContextAnalysis && (e.contextFilesLen != 0)) = false := by
      cases hb : (e.includeContextAnalysis && (e.contextFilesLen != 0))
      · rfl
      · exact absurd hb h
    rw [ctx_disabled e total h']
    intro ev hev
    simp at hev

theorem ctx_idx0 (e : Env) (total : Nat) :
    ∀ ev ∈ (ctxPhase e total).evs, ∀ j, evIdx ev = some j → j = 0 := by
  by_cases h : (e.includeContextAnalysis && (e.contextFilesLen != 0)) = true
  · obtain ⟨hevs, _⟩ := ctx_enabled_evs e total h
    rw [hevs]
    intro ev hev j hj
    simp at hev
    rcases hev with rfl | rfl | rfl | rfl <;> simp [evIdx] at hj <;> omega
  · have h' : (e.includeContextAnalysis && (e.contextFilesLen != 0)) = false := by
      cases hb : (e.includeContextAnalysis && (e.contextFilesLen != 0))
      · rfl
      · exact absurd hb h
    rw [ctx_disabled e total h']
    intro ev hev
    simp at hev

theorem ctx_stepEnd (e : Env) (total : Nat) {j : Nat} {s : String}
    (hmem : Ev.stepEnd j s ∈ (ctxPhase e total).evs) :
    j = 0 ∧ s = (ctxPhase e total).car
      ∧ chunksConcat (ctxPhase e total).evs 0 = (ctxPhase e total).car := by
  by_cases h : (e.includeContextAnalysis && (e.contextFilesLen != 0)) = true
  · obtain ⟨hevs, _⟩ := ctx_enabled_evs e total h
    rw [hevs] at hmem ⊢
    simp at hmem
    refine ⟨hmem.1, hmem.2, ?_⟩
    simp [chunksConcat, List.filterMap_cons, chunkTextAt, strJoin, String.append_empty]
  · have h' : (e.includeContextAnalysis && (e.contextFilesLen != 0)) = false := by
      cases hb : (e.includeContextAnalysis && (e.contextFilesLen != 0))
      · rfl
      · exact absurd hb h
    rw [ctx_disabled e total h'] at hmem
    simp at hmem

theorem ctx_prog_enabled (e : Env) (total : Nat)
    (h : (e.includeContextAnalysis && (e.contextFilesLen != 0)) = true) :
    progPairs (ctxPhase e total).evs = [(1, total)] := by
  obtain ⟨hevs, _⟩ := ctx_enabled_evs e total h
  rw [hevs, progPairs_cons_progress, progPairs_cons_stepStart, progPairs_cons_stepChunk,
      progPairs_cons_stepEnd, progPairs_nil]

theorem ctx_err (e : Env) (total : Nat) {m : String}
    (h : (e.includeContextAnalysis && (e.contextFilesLen != 0)) = true)
    (hm : ctxErrMsg e.ctx = some m) :
    (ctxPhase e total).car = m ∧ (ctxPhase e total).acc = []
      ∧ (ctxPhase e total).evs =
          [Ev.progress 1 total, Ev.stepStart 0 ctxTitle,
           Ev.stepChunk 0 m, Ev.stepEnd 0 m] := by
  cases hc : e.ctx with
  | ok a => simp [ctxErrMsg, hc] at hm
  | httpErr st =>
    simp [ctxErrMsg, hc] at hm
    subst hm
    simp [ctxPhase, h, hc]
  | fetchThrow msg =>
    simp [ctxErrMsg, hc] at hm
    subst hm
    simp [ctxPhase, h, hc]

theorem ctx_ok (e : Env) (total : Nat) {a : String}
    (h : (e.includeContextAnalysis && (e.contextFilesLen != 0)) = true)
    (hc : e.ctx = CtxOutcome.ok a) :
    (ctxPhase e total).car = a
      ∧ (ctxPhase e total).acc = [⟨ctxTitle, a, []⟩] := by
  simp [ctxPhase, h, hc]

theorem runPOST_noKey (e : Env) (h : e.hasApiKey = false) :
    runPOST e = [Ev.error "OPENAI_API_KEY required to execute research", Ev.done] := by
  simp [runPOST, runFull, tryBody, h, catchEvs]

theorem runPOST_noTopic (e : Env) (h1 : e.hasApiKey = true) (h2 : e.topic = "") :
    runPOST e = [Ev.error "Missing topic", Ev.done] := by
  simp [runPOST, runFull, tryBody, h1, h2, catchEvs]

theorem run_decomp_thrown (e : Env) (h1 : e.hasApiKey = true) (h2 : e.topic ≠ "")
    {th : Thrown} (hth : (loopOut e).thrown = some th) :
    runPOST e = (ctxOut e).evs ++ (loopOut e).evs ++ catchEvs (some th)
      ∧ runCalls e = (ctxOut e).calls ++ (loopOut e).calls := by
  have hth' := hth
  simp only [loopOut, ctxOut, totalOf] at hth'
  constructor
  · simp [runPOST, runFull, tryBody, h1, h2, hth', ctxOut, loopOut, totalOf,
          List.append_assoc]
  · simp [runCalls, runFull, tryBody, h1, h2, hth', ctxOut, loopOut, totalOf]

theorem run_decomp_aborted (e : Env) (h1 : e.hasApiKey = true) (h2 : e.topic ≠ "")
    (hth : (loopOut e).thrown = none)
    (hread : sigRead e.abortAt (loopOut e).k = true) :
    runPOST e = (ctxOut e).evs ++ (loopOut e).evs ++ [Ev.done]
      ∧ runCalls e = (ctxOut e).calls ++ (loopOut e).calls := by
  have hth' := hth
  have hread' := hread
  simp only [loopOut, ctxOut, totalOf] at hth' hread'
  constructor
  · simp [runPOST, runFull, tryBody, h1, h2, hth', hread', ctxOut, loopOut, totalOf,
          catchEvs, List.append_assoc]
  · simp [runCalls, runFull, tryBody, h1, h2, hth', hread', ctxOut, loopOut, totalOf]

theorem run_decomp_synth (e : Env) (h1 : e.hasApiKey = true) (h2 : e.topic ≠ "")
    (hth : (loopOut e).thrown = none)
    (hread : sigRead e.abortAt (loopOut e).k = false) :
    runPOST e = (ctxOut e).evs ++ (loopOut e).evs ++ (synthOut e).1
        ++ catchEvs (synthOut e).2.2
      ∧ runCalls e = (ctxOut e).calls ++ (loopOut e).calls ++ (synthOut e).2.1 := by
  have hth' := hth
  have hread' := hread
  simp only [loopOut, ctxOut, totalOf] at hth' hread'
  constructor
  · simp [runPOST, runFull, tryBody, h1, h2, hth', hread', ctxOut, loopOut, totalOf,
          synthOut, List.append_assoc]
  · simp [runCalls, runFull, tryBody, h1, h2, hth', hread', ctxOut, loopOut, totalOf,
          synthOut, List.append_assoc]

theorem not_mem_of_isStepEv {l : List Ev} (h : ∀ ev ∈ l, isStepEv ev = true)
    {ev : Ev} (hev : isStepEv ev = false) : ev ∉ l := by
  intro hm
  have := h ev hm
  rw [hev] at this
  cases this

/-- C2: every run of the execute-stream pipeline that is not killed at the
transport level ends with exactly one `done` event, which is the last
event of the stream: the trace is some prefix without `done` followed by
a single `done`.  This covers success, abort, missing API key, missing
topic, and every modelled exception path. -/
theorem c2_done_exactly_once_and_last (e : Env) :
    ∃ p, runPOST e = p ++ [Ev.done] ∧ Ev.done ∉ p := by
  cases hkey : e.hasApiKey with
  | false =>
    refine ⟨[Ev.error "OPENAI_API_KEY required to execute research"], ?_, by simp⟩
    rw [runPOST_noKey e hkey]
    rfl
  | true =>
    by_cases ht : e.topic = ""
    · refine ⟨[Ev.error "Missing topic"], ?_, by simp⟩
      rw [runPOST_noTopic e hkey ht]
      rfl
    · have hndC : Ev.done ∉ (ctxOut e).evs :=
        not_mem_of_isStepEv (ctx_isStepEv e (totalOf e)) rfl
      have hndL : Ev.done ∉ (loopOut e).evs :=
        not_mem_of_isStepEv
          (loop_isStepEv e (contextStepsOf e) (totalOf e) (ctxOut e).car e.steps 0 0
            (ctxOut e).acc) rfl
      cases hth : (loopOut e).thrown with
      | some th =>
        obtain ⟨hrun, _⟩ := run_decomp_thrown e hkey ht hth
        cases th with
        | abort =>
          refine ⟨(ctxOut e).evs ++ (loopOut e).evs, ?_, ?_⟩
          · rw [hrun]
            simp [catchEvs]
          · simp [hndC, hndL]
        | err m =>
          refine ⟨(ctxOut e).evs ++ (loopOut e).evs
            ++ [Ev.error (if m = "" then "Execution failed" else m)], ?_, ?_⟩
          · rw [hrun]
            simp [catchEvs]
          · simp [hndC, hndL]
      | none =>
        cases hread : sigRead e.abortAt (loopOut e).k with
        | true =>
          obtain ⟨hrun, _⟩ := run_decomp_aborted e hkey ht hth hread
          refine ⟨(ctxOut e).evs ++ (loopOut e).evs, ?_, by simp [hndC, hndL]⟩
          rw [hrun]
        | false =>
          obtain ⟨hrun, _⟩ := run_decomp_synth e hkey ht hth hread
          cases hsy : e.synth with
          | ok r =>
            refine ⟨(ctxOut e).evs ++ (loopOut e).evs
              ++ [Ev.progress (contextStepsOf e + e.steps.length)
                    (contextStepsOf e + e.steps.length + 1),
                  Ev.stepStart (contextStepsOf e + e.steps.length) synthTitle,
                  Ev.stepEnd (contextStepsOf e + e.steps.length) synthSummary,
                  Ev.progress (contextStepsOf e + e.steps.length + 1)
                    (contextStepsOf e + e.steps.length + 1),
                  Ev.report { r with sources := dedupByUrl ((loopOut e).acc.flatMap (fun c => c.sources)) }], ?_, ?_⟩
            · rw [hrun]
              simp [synthOut, synthPhase, hsy, catchEvs]
            · simp [hndC, hndL]
          | abortErr =>
            refine ⟨(ctxOut e).evs ++ (loopOut e).evs
              ++ [Ev.progress (contextStepsOf e + e.steps.length)
                    (contextStepsOf e + e.steps.length + 1),
                  Ev.stepStart (contextStepsOf e + e.steps.length) synthTitle], ?_, ?_⟩
            · rw [hrun]
              simp [synthOut, synthPhase, hsy, catchEvs]
            · simp [hndC, hndL]
          | err m =>
            refine ⟨(ctxOut e).evs ++ (loopOut e).evs
              ++ [Ev.progress (contextStepsOf e + e.steps.length)
                    (contextStepsOf e + e.steps.length + 1),
                  Ev.stepStart (contextStepsOf e + e.steps.length) synthTitle,
                  Ev.error (if m = "" then "Execution failed" else m)], ?_, ?_⟩
            · rw [hrun]
              simp [synthOut, synthPhase, hsy, catchEvs]
            · simp [hndC, hndL]

theorem chunksConcat_catchEvs (th : Option Thrown) (i : Nat) :
    chunksConcat (catchEvs th) i = "" := by
  cases th with
  | none => rfl
  | some t => cases t <;> simp [catchEvs, chunksConcat, List.filterMap_cons, chunkTextAt, strJoin]

theorem stepEnd_notin_catchEvs (th : Option Thrown) (j : Nat) (s : String) :
    Ev.stepEnd j s ∉ catchEvs th := by
  cases th with
  | none => simp [catchEvs]
  | some t => cases t <;> simp [catchEvs]

theorem chunksConcat_synthOut (e : Env) (i : Nat) :
    chunksConcat (synthOut e).1 i = "" := by
  cases hsy : e.synth <;>
    simp [synthOut, synthPhase, hsy, chunksConcat, List.filterMap_cons, chunkTextAt, strJoin]

theorem stepEnd_mem_synthOut (e : Env) {j : Nat} {s : String}
    (hmem : Ev.stepEnd j s ∈ (synthOut e).1) :
    j = contextStepsOf e + e.steps.length ∧ s = synthSummary := by
  cases hsy : e.synth with
  | ok r =>
    simp [synthOut, synthPhase, hsy] at hmem
    exact ⟨hmem.1, hmem.2⟩
  | abortErr => simp [synthOut, synthPhase, hsy] at hmem
  | err m => simp [synthOut, synthPhase, hsy] at hmem

theorem cs_split (e : Env) :
    (contextStepsOf e = 1
      ∧ (e.includeContextAnalysis && (e.contextFilesLen != 0)) = true)
    ∨ (contextStepsOf e = 0 ∧ (ctxOut e).evs = []) := by
  cases hc : (e.includeContextAnalysis && (e.contextFilesLen != 0)) with
  | true => exact Or.inl ⟨by simp [contextStepsOf, hc], rfl⟩
  | false =>
    right
    refine ⟨by simp [contextStepsOf, hc], ?_⟩
    have := ctx_disabled e (totalOf e) hc
    show (ctxPhase e (totalOf e)).evs = []
    rw [this]

theorem chunksConcat_ctx_pos (e : Env) {i : Nat} (hi : 1 ≤ i) :
    chunksConcat (ctxOut e).evs i = "" := by
  apply chunksConcat_nil_of_idx_ne
  intro ev hev j hj
  have := ctx_idx0 e (totalOf e) ev hev j hj
  omega

theorem chunksConcat_loop_zero (e : Env) (hcs : contextStepsOf e = 1) :
    chunksConcat (loopOut e).evs 0 = "" := by
  apply chunksConcat_nil_of_idx_ne
  intro ev hev j hj
  have := loop_idx_lb e (contextStepsOf e) (totalOf e) (ctxOut e).car e.steps 0 0
    (ctxOut e).acc ev hev j hj
  omega

/-- C3 amended: for every run and every step index `i` other than the
final synthesis index `contextSteps + stepCount`, concatenating the text
fields of all step-chunk events for `i` in emission order yields exactly
the summary field of any step-end event emitted for `i`.  (The synthesis
step-end carries the fixed text "Executive briefing generated
successfully" and has no chunks, so it is excluded.) -/
theorem c3_amended_chunk_reassembly (e : Env) (i : Nat) (s : String)
    (hne : i ≠ finalIdx e) (hmem : Ev.stepEnd i s ∈ runPOST e) :
    s = chunksConcat (runPOST e) i := by
  have hloopEnd := loop_stepEnd e (contextStepsOf e) (totalOf e) (ctxOut e).car
    e.steps 0 0 (ctxOut e).acc i s
  have hloopLb := loop_idx_lb e (contextStepsOf e) (totalOf e) (ctxOut e).car
    e.steps 0 0 (ctxOut e).acc
  cases hkey : e.hasApiKey with
  | false =>
    rw [runPOST_noKey e hkey] at hmem
    simp at hmem
  | true =>
    by_cases ht : e.topic = ""
    · rw [runPOST_noTopic e hkey ht] at hmem
      simp at hmem
    · have main : ∀ tail : List Ev,
          runPOST e = (ctxOut e).evs ++ (loopOut e).evs ++ tail →
          chunksConcat tail i = "" →
          Ev.stepEnd i s ∉ tail →
          s = chunksConcat (runPOST e) i := by
        intro tail hrun hcc hnm
        rw [hrun] at hmem ⊢
        rw [chunksConcat_append, chunksConcat_append, hcc, String.append_empty]
        rcases List.mem_append.mp hmem with hcl | htl
        · rcases List.mem_append.mp hcl with hc | hl
          · obtain ⟨hi0, hcar, hccctx⟩ := ctx_stepEnd e (totalOf e) hc
            subst hi0
            rcases cs_split e with ⟨hcs, _⟩ | ⟨_, hnil⟩
            · rw [chunksConcat_loop_zero e hcs, String.append_empty]
              exact hcar.trans hccctx.symm
            · exfalso
              have : (ctxOut e).evs = [] := hnil
              rw [this] at hc
              simp at hc
          · have hs := hloopEnd hl
            have hge : contextStepsOf e ≤ i := by
              have := hloopLb _ hl i rfl
              omega
            have hcctx : chunksConcat (ctxOut e).evs i = "" := by
              rcases cs_split e with ⟨hcs, _⟩ | ⟨_, hnil⟩
              · exact chunksConcat_ctx_pos e (by omega)
              · rw [hnil]
                rfl
            rw [hcctx, String.empty_append]
            exact hs
        · exact absurd htl hnm
      cases hth : (loopOut e).thrown with
      | some th =>
        obtain ⟨hrun, _⟩ := run_decomp_thrown e hkey ht hth
        exact main (catchEvs (some th)) hrun
          (chunksConcat_catchEvs _ i) (stepEnd_notin_catchEvs _ i s)
      | none =>
        cases hread : sigRead e.abortAt (loopOut e).k with
        | true =>
          obtain ⟨hrun, _⟩ := run_decomp_aborted e hkey ht hth hread
          exact main [Ev.done] hrun (by rfl) (by simp)
        | false =>
          obtain ⟨hrun, _⟩ := run_decomp_synth e hkey ht hth hread
          refine main ((synthOut e).1 ++ catchEvs (synthOut e).2.2)
            (by rw [hrun]; simp [List.append_assoc]) ?_ ?_
          · rw [chunksConcat_append, chunksConcat_synthOut, chunksConcat_catchEvs]
            rfl
          · intro hm
            rcases List.mem_append.mp hm with hm1 | hm2
            · obtain ⟨hj, _⟩ := stepEnd_mem_synthOut e hm1
              exact hne (by rw [hj]; rfl)
            · exact stepEnd_notin_catchEvs _ i s hm2

theorem loop_prog (e : Env) (cs total : Nat) (car : String) :
    ∀ (rest : List Step) (i k : Nat) (acc : List Collected),
      ∃ m, m ≤ rest.length ∧
        progPairs (loopPhase e cs total car rest i k acc).evs =
          (List.range m).map (fun p => (cs + i + p + 1, total)) := by
  intro rest
  induction rest with
  | nil =>
    intro i k acc
    exact ⟨0, Nat.zero_le _, by simp [loopPhase, progPairs]⟩
  | cons step rest ih =>
    intro i k acc
    by_cases hs : sigRead e.abortAt k = true
    · exact ⟨0, Nat.zero_le _, by simp [loopPhase, hs, progPairs]⟩
    · have hs' : sigRead e.abortAt k = false := by
        cases hb : sigRead e.abortAt k
        · rfl
        · exact absurd hb hs
      have hbp := body_prog e cs total car step i (k + 1)
      cases hbth : (stepBody e cs total car step i (k + 1)).thrown with
      | some th =>
        refine ⟨1, by exact Nat.succ_le_succ (Nat.zero_le _), ?_⟩
        have hevs : (loopPhase e cs total car (step :: rest) i k acc).evs =
            (stepBody e cs total car step i (k + 1)).evs := by
          simp [loopPhase, hs', hbth]
        rw [hevs, hbp]
        rw [show List.range 1 = [0] from by decide]
        rfl
      | none =>
        obtain ⟨m, hm, hrec⟩ := ih (i + 1)
          (stepBody e cs total car step i (k + 1)).k
          (acc ++ (stepBody e cs total car step i (k + 1)).item.toList)
        refine ⟨m + 1, by simp; omega, ?_⟩
        have hevs : (loopPhase e cs total car (step :: rest) i k acc).evs =
            (stepBody e cs total car step i (k + 1)).evs ++
              (loopPhase e cs total car rest (i + 1)
                (stepBody e cs total car step i (k + 1)).k
                (acc ++ (stepBody e cs total car step i (k + 1)).item.toList)).evs := by
          simp [loopPhase, hs', hbth]
        rw [hevs, progPairs_append, hbp, hrec]
        rw [List.range_succ_eq_map]
        have hmap : List.map (fun p => (cs + (i + 1) + p + 1, total)) (List.range m)
            = List.map ((fun p => (cs + i + p + 1, total)) ∘ Nat.succ) (List.range m) := by
          apply List.map_congr_left
          intro p _
          simp [Function.comp]
          omega
        rw [hmap]
        simp

theorem progPairs_stepSegEvs (e : Env) (cs total i : Nat) (step : Step) :
    progPairs (stepSegEvs e cs total i step) = [(cs + i + 1, total)] := by
  simp only [stepSegEvs, List.cons_append, List.nil_append, List.append_assoc]
  rw [progPairs_cons_progress, progPairs_cons_stepStart, progPairs_cons_stepSources,
      progPairs_append, progPairs_chunks, progPairs_append, progPairs_usageEvs,
      progPairs_cons_stepEnd, progPairs_nil]
  simp

theorem progPairs_fullSegs (e : Env) (cs total : Nat) :
    ∀ (rest : List Step) (i : Nat),
      progPairs (fullSegs e cs total rest i) =
        (List.range rest.length).map (fun p => (cs + i + p + 1, total)) := by
  intro rest
  induction rest with
  | nil => intro i; simp [fullSegs, progPairs]
  | cons step rest ih =>
    intro i
    rw [show fullSegs e cs total (step :: rest) i =
        stepSegEvs e cs total i step ++ fullSegs e cs total rest (i + 1) from rfl]
    rw [progPairs_append, progPairs_stepSegEvs, ih (i + 1)]
    rw [show (step :: rest).length = rest.length + 1 from rfl]
    rw [List.range_succ_eq_map]
    have hmap : List.map (fun p => (cs + (i + 1) + p + 1, total)) (List.range rest.length)
        = List.map ((fun p => (cs + i + p + 1, total)) ∘ Nat.succ) (List.range rest.length) := by
      apply List.map_congr_left
      intro p _
      simp [Function.comp]
      omega
    rw [hmap]
    simp

theorem chain_le_range_map (c : Nat) (m : Nat) :
    List.Chain' (fun a b => a ≤ b) ((List.range m).map (fun p => c + p + 1)) := by
  rw [List.chain'_map]
  cases m with
  | zero => simp
  | succ mm =>
    rw [List.chain'_range_succ]
    intro q _
    omega

theorem range_map_head (f : Nat → Nat) (mm : Nat) :
    (((List.range (mm + 1)).map f).head?) = some (f 0) := by
  rw [List.range_succ_eq_map]
  simp

theorem range_map_last (f : Nat → Nat) (mm : Nat) :
    (((List.range (mm + 1)).map f).getLast?) = some (f mm) := by
  rw [List.range_succ]
  simp

theorem c6_chain_core (cs n m total : Nat) (hm : m ≤ n)
    (Pc : List (Nat × Nat)) (hPc : Pc = [] ∨ (cs = 1 ∧ Pc = [(1, total)]))
    (Pt : List (Nat × Nat))
    (hPt : Pt = [] ∨ (m = n ∧ (Pt = [(cs + n, cs + n + 1)]
        ∨ Pt = [(cs + n, cs + n + 1), (cs + n + 1, cs + n + 1)]))) :
    List.Chain' (fun a b => a ≤ b)
      ((Pc ++ (List.range m).map (fun p => (cs + p + 1, total)) ++ Pt).map Prod.fst) := by
  rw [List.map_append, List.map_append, List.map_map]
  have hcomp : (Prod.fst ∘ fun p => ((cs + p + 1 : Nat), total)) = fun p => cs + p + 1 := by
    funext p
    rfl
  rw [hcomp]
  rw [List.chain'_append, List.chain'_append]
  refine ⟨⟨?_, ?_, ?_⟩, ?_, ?_⟩
  · rcases hPc with rfl | ⟨_, rfl⟩
    · simp
    · simp
  · exact chain_le_range_map cs m
  · intro x hx y hy
    rcases hPc with rfl | ⟨hcs, rfl⟩
    · simp at hx
    · simp at hx
      subst hx
      cases m with
      | zero => simp at hy
      | succ mm =>
        rw [range_map_head] at hy
        simp at hy
        omega
  · rcases hPt with rfl | ⟨_, rfl | rfl⟩
    · simp
    · simp
    · simp
  · intro x hx y hy
    rcases hPt with rfl | ⟨hmn, rfl | rfl⟩
    · simp at hy
    · subst hmn
      simp at hy
      subst hy
      cases m with
      | zero =>
        rcases hPc with rfl | ⟨hcs, rfl⟩
        · simp at hx
        · simp at hx
          omega
      | succ mm =>
        rw [List.getLast?_append_of_ne_nil] at hx
        · rw [range_map_last] at hx
          simp at hx
          omega
        · simp
    · subst hmn
      simp at hy
      subst hy
      cases m with
      | zero =>
        rcases hPc with rfl | ⟨hcs, rfl⟩
        · simp at hx
        · simp at hx
          omega
      | succ mm =>
        rw [List.getLast?_append_of_ne_nil] at hx
        · rw [range_map_last] at hx
          simp at hx
          omega
        · simp

theorem c6_all_core (cs n m total : Nat) (hm : m ≤ n) (htot : total = max 1 (cs + n))
    (Pc : List (Nat × Nat)) (hPc : Pc = [] ∨ (cs = 1 ∧ Pc = [(1, total)]))
    (Pt : List (Nat × Nat))
    (hPt : Pt = [] ∨ (m = n ∧ (Pt = [(cs + n, cs + n + 1)]
        ∨ Pt = [(cs + n, cs + n + 1), (cs + n + 1, cs + n + 1)]))) :
    (Pc ++ (List.range m).map (fun p => (cs + p + 1, total)) ++ Pt).all
      (fun pr => decide (pr.1 ≤ pr.2)) = true := by
  rw [List.all_append, List.all_append, Bool.and_eq_true, Bool.and_eq_true]
  refine ⟨⟨?_, ?_⟩, ?_⟩
  · rcases hPc with rfl | ⟨_, rfl⟩
    · simp
    · simp [htot]
  · rw [List.all_eq_true]
    intro pr hpr
    obtain ⟨p, hp, rfl⟩ := List.mem_map.mp hpr
    have hpm : p < m := List.mem_range.mp hp
    simp only [decide_eq_true_eq]
    calc cs + p + 1 ≤ cs + n := by omega
    _ ≤ max 1 (cs + n) := Nat.le_max_right 1 (cs + n)
    _ = total := by rw [htot]
  · rcases hPt with rfl | ⟨_, rfl | rfl⟩
    · simp
    · simp
    · simp

theorem progPairs_catchEvs (th : Option Thrown) : progPairs (catchEvs th) = [] := by
  cases th with
  | none => rfl
  | some t => cases t <;> simp [catchEvs, progPairs]

/-- C6: across the emitted event sequence of any run, `progress.current`
is non-decreasing, and every progress event satisfies
`current ≤ total` (the total carried by that same event). -/
theorem c6_progress_monotone_and_bounded (e : Env) :
    List.Chain' (fun a b => a ≤ b) (currents (runPOST e))
      ∧ (progPairs (runPOST e)).all (fun pr => decide (pr.1 ≤ pr.2)) = true := by
  cases hkey : e.hasApiKey with
  | false =>
    rw [runPOST_noKey e hkey]
    exact ⟨by simp [currents, progPairs], by simp [progPairs]⟩
  | true =>
    by_cases ht : e.topic = ""
    · rw [runPOST_noTopic e hkey ht]
      exact ⟨by simp [currents, progPairs], by simp [progPairs]⟩
    · have hPcAlt : progPairs (ctxOut e).evs = []
          ∨ (contextStepsOf e = 1
              ∧ progPairs (ctxOut e).evs = [(1, totalOf e)]) := by
        rcases cs_split e with ⟨hcs1, hen⟩ | ⟨hcs0, hnil⟩
        · exact Or.inr ⟨hcs1, ctx_prog_enabled e (totalOf e) hen⟩
        · left
          rw [hnil]
          rfl
      have htot : totalOf e = max 1 (contextStepsOf e + e.steps.length) := rfl
      have hfun : (fun p => ((contextStepsOf e) + 0 + p + 1, totalOf e))
          = (fun p => (contextStepsOf e + p + 1, totalOf e)) := by
        funext p
        simp
      have core : ∀ (m : Nat), m ≤ e.steps.length →
          ∀ (Pt : List (Nat × Nat)),
          (Pt = [] ∨ (m = e.steps.length
            ∧ (Pt = [(contextStepsOf e + e.steps.length,
                      contextStepsOf e + e.steps.length + 1)]
              ∨ Pt = [(contextStepsOf e + e.steps.length,
                       contextStepsOf e + e.steps.length + 1),
                      (contextStepsOf e + e.steps.length + 1,
                       contextStepsOf e + e.steps.length + 1)]))) →
          progPairs (runPOST e) = progPairs (ctxOut e).evs
            ++ (List.range m).map (fun p => (contextStepsOf e + p + 1, totalOf e))
            ++ Pt →
          List.Chain' (fun a b => a ≤ b) (currents (runPOST e))
            ∧ (progPairs (runPOST e)).all (fun pr => decide (pr.1 ≤ pr.2)) = true := by
        intro m hm Pt hPt hpp
        constructor
        · show List.Chain' (fun a b => a ≤ b) ((progPairs (runPOST e)).map Prod.fst)
          rw [hpp]
          exact c6_chain_core (contextStepsOf e) e.steps.length m (totalOf e) hm _
            hPcAlt Pt hPt
        · rw [hpp]
          exact c6_all_core (contextStepsOf e) e.steps.length m (totalOf e) hm htot _
            hPcAlt Pt hPt
      cases hth : (loopOut e).thrown with
      | some th =>
        obtain ⟨hrun, _⟩ := run_decomp_thrown e hkey ht hth
        obtain ⟨m, hm, hpl⟩ := loop_prog e (contextStepsOf e) (totalOf e)
          (ctxOut e).car e.steps 0 0 (ctxOut e).acc
        rw [hfun] at hpl
        have hpl2 : progPairs (loopOut e).evs =
            (List.range m).map (fun p => (contextStepsOf e + p + 1, totalOf e)) := hpl
        refine core m hm [] (Or.inl rfl) ?_
        rw [hrun, progPairs_append, progPairs_append, hpl2, progPairs_catchEvs]
      | none =>
        cases hread : sigRead e.abortAt (loopOut e).k with
        | true =>
          obtain ⟨hrun, _⟩ := run_decomp_aborted e hkey ht hth hread
          obtain ⟨m, hm, hpl⟩ := loop_prog e (contextStepsOf e) (totalOf e)
            (ctxOut e).car e.steps 0 0 (ctxOut e).acc
          rw [hfun] at hpl
          have hpl2 : progPairs (loopOut e).evs =
              (List.range m).map (fun p => (contextStepsOf e + p + 1, totalOf e)) := hpl
          refine core m hm [] (Or.inl rfl) ?_
          rw [hrun, progPairs_append, progPairs_append, hpl2]
          simp [progPairs]
        | false =>
          obtain ⟨hrun, _⟩ := run_decomp_synth e hkey ht hth hread
          have hfull := loop_final_false e (contextStepsOf e) (totalOf e)
            (ctxOut e).car e.steps 0 0 (ctxOut e).acc hth hread
          have hplfull : progPairs (loopOut e).evs =
              (List.range e.steps.length).map
                (fun p => (contextStepsOf e + p + 1, totalOf e)) := by
            have hevs : (loopOut e).evs =
                fullSegs e (contextStepsOf e) (totalOf e) e.steps 0 := by
              rw [show loopOut e = loopPhase e (contextStepsOf e) (totalOf e)
                  (ctxOut e).car e.steps 0 0 (ctxOut e).acc from rfl, hfull]
            rw [hevs, progPairs_fullSegs]
            rw [hfun]
          cases hsy : e.synth with
          | ok r =>
            refine core e.steps.length (Nat.le_refl _)
              [(contextStepsOf e + e.steps.length,
                contextStepsOf e + e.steps.length + 1),
               (contextStepsOf e + e.steps.length + 1,
                contextStepsOf e + e.steps.length + 1)]
              (Or.inr ⟨rfl, Or.inr rfl⟩) ?_
            rw [hrun, progPairs_append, progPairs_append, progPairs_append, hplfull]
            have hsyn : progPairs (synthOut e).1 =
                [(contextStepsOf e + e.steps.length,
                  contextStepsOf e + e.steps.length + 1),
                 (contextStepsOf e + e.steps.length + 1,
                  contextStepsOf e + e.steps.length + 1)] := by
              simp [synthOut, synthPhase, hsy, progPairs]
            have hcat : progPairs (catchEvs (synthOut e).2.2) = [] := by
              apply progPairs_catchEvs
            rw [hsyn, hcat]
            simp
          | abortErr =>
            refine core e.steps.length (Nat.le_refl _)
              [(contextStepsOf e + e.steps.length,
                contextStepsOf e + e.steps.length + 1)]
              (Or.inr ⟨rfl, Or.inl rfl⟩) ?_
            rw [hrun, progPairs_append, progPairs_append, progPairs_append, hplfull]
            have hsyn : progPairs (synthOut e).1 =
                [(contextStepsOf e + e.steps.length,
                  contextStepsOf e + e.steps.length + 1)] := by
              simp [synthOut, synthPhase, hsy, progPairs]
            have hcat : progPairs (catchEvs (synthOut e).2.2) = [] := by
              apply progPairs_catchEvs
            rw [hsyn, hcat]
            simp
          | err msg =>
            refine core e.steps.length (Nat.le_refl _)
              [(contextStepsOf e + e.steps.length,
                contextStepsOf e + e.steps.length + 1)]
              (Or.inr ⟨rfl, Or.inl rfl⟩) ?_
            rw [hrun, progPairs_append, progPairs_append, progPairs_append, hplfull]
            have hsyn : progPairs (synthOut e).1 =
                [(contextStepsOf e + e.steps.length,
                  contextStepsOf e + e.steps.length + 1)] := by
              simp [synthOut, synthPhase, hsy, progPairs]
            have hcat : progPairs (catchEvs (synthOut e).2.2) = [] := by
              apply progPairs_catchEvs
            rw [hsyn, hcat]
            simp

theorem loopOut_all_ok (e : Env) (ha : e.abortAt = none)
    (hok : ∀ q, q < e.steps.length → stepOkB (stepEnvOf e q) = true) :
    loopOut e = ⟨fullSegs e (contextStepsOf e) (totalOf e) e.steps 0,
                 fullCalls e (ctxOut e).car e.steps 0,
                 segReads e e.steps 0,
                 (ctxOut e).acc ++ fullItems e e.steps 0, none⟩ := by
  have hpre := loop_ok_front e (contextStepsOf e) (totalOf e) (ctxOut e).car
    e.steps [] 0 0 (ctxOut e).acc
    (by intro q hq; rw [Nat.zero_add]; exact hok q hq)
    (by intro kq _; rw [ha]; rfl)
  rw [List.append_nil] at hpre
  show loopPhase e (contextStepsOf e) (totalOf e) (ctxOut e).car e.steps 0 0
      (ctxOut e).acc = _
  rw [hpre]
  simp [loopPhase]

theorem countP_isStepStart_chunks (si : Nat) (l : List String) :
    (l.map (Ev.stepChunk si)).countP isStepStart = 0 := by
  rw [List.countP_eq_zero]
  intro ev hev
  obtain ⟨d, _, rfl⟩ := List.mem_map.mp hev
  simp [isStepStart]

theorem countP_isStepStart_usage (se : StepEnv) (si : Nat) :
    (usageEvs se si).countP isStepStart = 0 := by
  cases hu : se.usage <;> simp [usageEvs, hu, List.countP, List.countP.go, isStepStart]

theorem countP_isStepStart_stepSegEvs (e : Env) (cs total i : Nat) (step : Step) :
    (stepSegEvs e cs total i step).countP isStepStart = 1 := by
  simp only [stepSegEvs, List.cons_append, List.nil_append]
  rw [List.countP_cons, List.countP_cons, List.countP_cons, List.countP_append,
      List.countP_append]
  rw [countP_isStepStart_chunks, countP_isStepStart_usage]
  rfl

theorem countP_isStepStart_fullSegs (e : Env) (cs total : Nat) :
    ∀ (rest : List Step) (i : Nat),
      (fullSegs e cs total rest i).countP isStepStart = rest.length := by
  intro rest
  induction rest with
  | nil => intro i; rfl
  | cons step rest ih =>
    intro i
    rw [show fullSegs e cs total (step :: rest) i =
        stepSegEvs e cs total i step ++ fullSegs e cs total rest (i + 1) from rfl]
    rw [List.countP_append, countP_isStepStart_stepSegEvs, ih (i + 1)]
    simp [Nat.add_comm]

theorem countP_isStepStart_ctx (e : Env) :
    ((ctxOut e).evs).countP isStepStart = contextStepsOf e := by
  rcases cs_split e with ⟨hcs, hen⟩ | ⟨hcs, hnil⟩
  · obtain ⟨hevs, _⟩ := ctx_enabled_evs e (totalOf e) hen
    rw [show (ctxOut e).evs = (ctxPhase e (totalOf e)).evs from rfl, hevs, hcs]
    rfl
  · rw [hnil, hcs]
    rfl

theorem stepSegEvs_idx (e : Env) (cs total i : Nat) (step : Step) :
    ∀ ev ∈ stepSegEvs e cs total i step, ∀ j, evIdx ev = some j → j = cs + i := by
  intro ev hev j hj
  simp only [stepSegEvs, List.cons_append, List.nil_append] at hev
  simp at hev
  rcases hev with rfl | rfl | rfl | hch | hu | rfl
  · simp [evIdx] at hj
  · simp [evIdx] at hj; omega
  · simp [evIdx] at hj; omega
  · obtain ⟨d, _, rfl⟩ := hch
    simp [evIdx] at hj
    omega
  · exact usageEvs_idx _ _ ev hu j hj
  · simp [evIdx] at hj; omega

theorem stepSegEvs_isStepEv (e : Env) (cs total i : Nat) (step : Step) :
    ∀ ev ∈ stepSegEvs e cs total i step, isStepEv ev = true := by
  intro ev hev
  simp only [stepSegEvs, List.cons_append, List.nil_append] at hev
  simp at hev
  rcases hev with rfl | rfl | rfl | hch | hu | rfl
  · rfl
  · rfl
  · rfl
  · obtain ⟨d, _, rfl⟩ := hch
    rfl
  · exact usageEvs_isStepEv _ _ ev hu
  · rfl

theorem fullSegs_idx (e : Env) (cs total : Nat) :
    ∀ (rest : List Step) (i : Nat), ∀ ev ∈ fullSegs e cs total rest i,
      ∀ j, evIdx ev = some j → cs + i ≤ j ∧ j < cs + i + rest.length := by
  intro rest
  induction rest with
  | nil => intro i ev hev; simp [fullSegs] at hev
  | cons step rest ih =>
    intro i ev hev j hj
    rw [show fullSegs e cs total (step :: rest) i =
        stepSegEvs e cs total i step ++ fullSegs e cs total rest (i + 1) from rfl] at hev
    rcases List.mem_append.mp hev with hs | hr
    · have := stepSegEvs_idx e cs total i step ev hs j hj
      simp
      omega
    · have := ih (i + 1) ev hr j hj
      simp
      omega

theorem fullSegs_isStepEv (e : Env) (cs total : Nat) :
    ∀ (rest : List Step) (i : Nat), ∀ ev ∈ fullSegs e cs total rest i,
      isStepEv ev = true := by
  intro rest
  induction rest with
  | nil => intro i ev hev; simp [fullSegs] at hev
  | cons step rest ih =>
    intro i ev hev
    rw [show fullSegs e cs total (step :: rest) i =
        stepSegEvs e cs total i step ++ fullSegs e cs total rest (i + 1) from rfl] at hev
    rcases List.mem_append.mp hev with hs | hr
    · exact stepSegEvs_isStepEv e cs total i step ev hs
    · exact ih (i + 1) ev hr

theorem fullSegs_stepStart_mem (e : Env) (cs total : Nat) :
    ∀ (rest : List Step) (i q : Nat), q < rest.length →
      Ev.stepStart (cs + (i + q)) ((rest.getD q defaultStep).title)
        ∈ fullSegs e cs total rest i := by
  intro rest
  induction rest with
  | nil => intro i q hq; simp at hq
  | cons step rest ih =>
    intro i q hq
    rw [show fullSegs e cs total (step :: rest) i =
        stepSegEvs e cs total i step ++ fullSegs e cs total rest (i + 1) from rfl]
    cases q with
    | zero =>
      apply List.mem_append_left
      simp [stepSegEvs]
    | succ qq =>
      apply List.mem_append_right
      have := ih (i + 1) qq (by simpa using Nat.lt_of_succ_lt_succ hq)
      have harr : i + 1 + qq = i + (qq + 1) := by omega
      rw [harr] at this
      exact this

theorem fullCalls_mem (e : Env) (car : String) :
    ∀ (rest : List Step) (i q : Nat), q < rest.length →
      Call.search (i + q) (searchPrompt e.topic e.context e.goals e.clarifyingAnswers
          car (rest.getD q defaultStep)) ∈ fullCalls e car rest i
        ∧ Call.write (i + q) (writePrompt e.topic e.context e.goals e.clarifyingAnswers
            car (rest.getD q defaultStep) (i + q)
            (searchSources (stepEnvOf e (i + q)))) ∈ fullCalls e car rest i := by
  intro rest
  induction rest with
  | nil => intro i q hq; simp at hq
  | cons step rest ih =>
    intro i q hq
    rw [show fullCalls e car (step :: rest) i =
        stepSegCalls e car i step ++ fullCalls e car rest (i + 1) from rfl]
    cases q with
    | zero =>
      constructor
      · apply List.mem_append_left
        simp [stepSegCalls]
      · apply List.mem_append_left
        simp [stepSegCalls]
    | succ qq =>
      have hlt : qq < rest.length := by simpa using Nat.lt_of_succ_lt_succ hq
      have := ih (i + 1) qq hlt
      have harr : i + 1 + qq = i + (qq + 1) := by omega
      rw [harr] at this
      exact ⟨List.mem_append_right _ this.1, List.mem_append_right _ this.2⟩

theorem fullItems_flat (e : Env) :
    ∀ (rest : List Step) (i : Nat),
      (fullItems e rest i).flatMap (fun c => c.sources) = stepSourcesList e rest i := by
  intro rest
  induction rest with
  | nil => intro i; rfl
  | cons step rest ih =>
    intro i
    rw [show fullItems e (step :: rest) i =
        stepItem e i step :: fullItems e rest (i + 1) from rfl]
    rw [List.flatMap_cons, ih (i + 1)]
    rfl

theorem ctx_acc_flat (e : Env) :
    ((ctxOut e).acc).flatMap (fun c => c.sources) = [] := by
  by_cases h : (e.includeContextAnalysis && (e.contextFilesLen != 0)) = true
  · cases hc : e.ctx <;>
      simp [ctxOut, ctxPhase, h, hc]
  · have h' : (e.includeContextAnalysis && (e.contextFilesLen != 0)) = false := by
      cases hb : (e.includeContextAnalysis && (e.contextFilesLen != 0))
      · rfl
      · exact absurd hb h
    rw [show (ctxOut e).acc = (ctxPhase e (totalOf e)).acc from rfl, ctx_disabled e _ h']
    rfl

theorem dedupGo_append_sub :
    ∀ (l acc : List Source), ∃ extra, List.Sublist extra l
      ∧ dedupGo acc l = acc ++ extra := by
  intro l
  induction l with
  | nil => intro acc; exact ⟨[], List.Sublist.refl _, by simp [dedupGo]⟩
  | cons s rest ih =>
    intro acc
    by_cases hs : acc.any (fun x => x.url == s.url) = true
    · obtain ⟨extra, hsub, heq⟩ := ih acc
      exact ⟨extra, List.Sublist.cons s hsub, by rw [dedupGo, if_pos hs]; exact heq⟩
    · have hs' : acc.any (fun x => x.url == s.url) = false := by
        cases hb : acc.any (fun x => x.url == s.url)
        · rfl
        · exact absurd hb hs
      obtain ⟨extra, hsub, heq⟩ := ih (acc ++ [s])
      refine ⟨s :: extra, List.Sublist.cons₂ s hsub, ?_⟩
      rw [dedupGo, if_neg (by rw [hs']; exact Bool.false_ne_true), heq]
      simp

theorem dedupGo_mem_src :
    ∀ (l acc : List Source) (x : Source), x ∈ dedupGo acc l → x ∈ acc ∨ x ∈ l := by
  intro l
  induction l with
  | nil => intro acc x hx; left; simpa [dedupGo] using hx
  | cons s rest ih =>
    intro acc x hx
    by_cases hs : acc.any (fun y => y.url == s.url) = true
    · rw [dedupGo, if_pos hs] at hx
      rcases ih acc x hx with h | h
      · left; exact h
      · right; exact List.mem_cons_of_mem s h
    · have hs' : ¬(acc.any (fun y => y.url == s.url) = true) := hs
      rw [dedupGo, if_neg hs'] at hx
      rcases ih (acc ++ [s]) x hx with h | h
      · rcases List.mem_append.mp h with h1 | h1
        · left; exact h1
        · right
          simp at h1
          rw [h1]
          exact List.mem_cons_self s rest
      · right; exact List.mem_cons_of_mem s h

theorem dedupGo_covers :
    ∀ (l acc : List Source) (s : Source), s ∈ l →
      ∃ x, x ∈ dedupGo acc l ∧ x.url = s.url := by
  intro l
  induction l with
  | nil => intro acc s hs; cases hs
  | cons a rest ih =>
    intro acc s hs
    have hext : ∀ acc2 : List Source, (∃ x, x ∈ acc2 ∧ x.url = s.url) →
        ∃ x, x ∈ dedupGo acc2 rest ∧ x.url = s.url := by
      intro acc2 ⟨x, hx, hurl⟩
      obtain ⟨extra, _, heq⟩ := dedupGo_append_sub rest acc2
      exact ⟨x, by rw [heq]; exact List.mem_append_left _ hx, hurl⟩
    rcases List.mem_cons.mp hs with rfl | hmem
    · by_cases ha : acc.any (fun y => y.url == s.url) = true
      · rw [dedupGo, if_pos ha]
        obtain ⟨x, hx, hurl⟩ := List.any_eq_true.mp ha
        exact hext acc ⟨x, hx, by simpa using hurl⟩
      · rw [dedupGo, if_neg ha]
        exact hext (acc ++ [s]) ⟨s, by simp, rfl⟩
    · by_cases ha : acc.any (fun y => y.url == a.url) = true
      · rw [dedupGo, if_pos ha]
        exact ih acc s hmem
      · rw [dedupGo, if_neg ha]
        exact ih (acc ++ [a]) s hmem

theorem dedupGo_new_urls :
    ∀ (l acc : List Source) (x : Source), x ∈ dedupGo acc l → x ∉ acc →
      ∀ y ∈ acc, y.url ≠ x.url := by
  intro l
  induction l with
  | nil =>
    intro acc x hx hnx
    exfalso
    exact hnx (by simpa [dedupGo] using hx)
  | cons s rest ih =>
    intro acc x hx hnx y hy
    by_cases ha : acc.any (fun z => z.url == s.url) = true
    · rw [dedupGo, if_pos ha] at hx
      exact ih acc x hx hnx y hy
    · rw [dedupGo, if_neg ha] at hx
      by_cases hxs : x ∈ acc ++ [s]
      · rcases List.mem_append.mp hxs with h1 | h1
        · exact absurd h1 hnx
        · simp at h1
          subst h1
          intro hyx
          apply ha
          exact List.any_eq_true.mpr ⟨y, hy, by simp [hyx]⟩
      · exact ih (acc ++ [s]) x hx hxs y (List.mem_append_left _ hy)

theorem dedupGo_find :
    ∀ (l acc : List Source) (x : Source), x ∈ dedupGo acc l → x ∉ acc →
      l.find? (fun y => y.url == x.url) = some x := by
  intro l
  induction l with
  | nil =>
    intro acc x hx hnx
    exfalso
    exact hnx (by simpa [dedupGo] using hx)
  | cons s rest ih =>
    intro acc x hx hnx
    by_cases ha : acc.any (fun z => z.url == s.url) = true
    · rw [dedupGo, if_pos ha] at hx
      have hxr := ih acc x hx hnx
      have hsx : (s.url == x.url) = false := by
        cases hb : (s.url == x.url)
        · rfl
        · exfalso
          obtain ⟨z, hz, hzu⟩ := List.any_eq_true.mp ha
          have hzx : z.url = x.url := by
            have hzs : z.url = s.url := by simpa using hzu
            have hsu : s.url = x.url := by simpa using hb
            rw [hzs, hsu]
          exact dedupGo_new_urls rest acc x hx hnx z hz hzx
      rw [List.find?_cons, hsx]
      exact hxr
    · rw [dedupGo, if_neg ha] at hx
      by_cases hxs : x = s
      · subst hxs
        rw [List.find?_cons]
        simp
      · have hnx2 : x ∉ acc ++ [s] := by
          intro hmem
          rcases List.mem_append.mp hmem with h1 | h1
          · exact hnx h1
          · simp at h1
            exact hxs h1
        have hxr := ih (acc ++ [s]) x hx hnx2
        have hsux : (s.url == x.url) = false := by
          cases hb : (s.url == x.url)
          · rfl
          · exfalso
            have := dedupGo_new_urls rest (acc ++ [s]) x hx hnx2 s (by simp)
            exact this (by simpa using hb)
        rw [List.find?_cons, hsux]
        exact hxr

theorem dedupGo_urls_nodup :
    ∀ (l acc : List Source), ((acc.map (fun s => s.url)).Nodup) →
      (((dedupGo acc l).map (fun s => s.url)).Nodup) := by
  intro l
  induction l with
  | nil => intro acc h; simpa [dedupGo] using h
  | cons s rest ih =>
    intro acc h
    by_cases ha : acc.any (fun z => z.url == s.url) = true
    · rw [dedupGo, if_pos ha]
      exact ih acc h
    · rw [dedupGo, if_neg ha]
      apply ih (acc ++ [s])
      rw [List.map_append, List.nodup_append]
      refine ⟨h, by simp, ?_⟩
      intro u hu hu2
      simp at hu2
      obtain ⟨z, hz, hzu⟩ := List.mem_map.mp hu
      apply ha
      exact List.any_eq_true.mpr ⟨z, hz, by simp [hzu, hu2]⟩

/-- C5 amended: on a run that is not aborted and whose step sub-calls all
succeed, the number of step-start events equals the number of configured
active steps, plus 1 if context analysis is enabled, plus 1 for the final
synthesis step-start ("Generating Executive Briefing"). -/
theorem c5_amended_stepStart_count (e : Env)
    (h1 : e.hasApiKey = true) (h2 : e.topic ≠ "")
    (ha : e.abortAt = none)
    (hok : ∀ q, q < e.steps.length → stepOkB (stepEnvOf e q) = true) :
    (runPOST e).countP isStepStart = contextStepsOf e + e.steps.length + 1 := by
  have hfull := loopOut_all_ok e ha hok
  have hth : (loopOut e).thrown = none := by rw [hfull]
  have hread : sigRead e.abortAt (loopOut e).k = false := by rw [ha]; rfl
  obtain ⟨hrun, _⟩ := run_decomp_synth e h1 h2 hth hread
  rw [hrun]
  rw [List.countP_append, List.countP_append, List.countP_append]
  rw [countP_isStepStart_ctx]
  rw [show (loopOut e).evs = fullSegs e (contextStepsOf e) (totalOf e) e.steps 0 from
    by rw [hfull]]
  rw [countP_isStepStart_fullSegs]
  have hsynth : ((synthOut e).1.countP isStepStart)
      + ((catchEvs (synthOut e).2.2).countP isStepStart) = 1 := by
    cases hsy : e.synth <;>
      simp [synthOut, synthPhase, hsy, catchEvs, List.countP_cons, List.countP_nil,
        isStepStart]
  omega

theorem c5_amended_witness :
    (runPOST envC5).countP isStepStart = contextStepsOf envC5 + envC5.steps.length + 1 :=
  c5_amended_stepStart_count envC5 rfl (by decide) rfl (by decide)

/-- C8: for every successful run, the report's sources are exactly the
URL-deduplicated concatenation of all steps' step-sources lists:
one entry per distinct URL, kept in first-occurrence order (a sublist of
the concatenation with pairwise-distinct URLs covering every URL), each
entry being the first occurrence of its URL. -/
theorem c8_report_source_dedup (e : Env) (r : Report)
    (h1 : e.hasApiKey = true) (h2 : e.topic ≠ "") (ha : e.abortAt = none)
    (hok : ∀ q, q < e.steps.length → stepOkB (stepEnvOf e q) = true)
    (hsy : e.synth = CallOutcome.ok r) :
    Ev.report { r with sources := dedupByUrl (allStepSources e) } ∈ runPOST e
      ∧ List.Sublist (dedupByUrl (allStepSources e)) (allStepSources e)
      ∧ ((dedupByUrl (allStepSources e)).map (fun s => s.url)).Nodup
      ∧ (∀ s, s ∈ allStepSources e →
          ∃ x, x ∈ dedupByUrl (allStepSources e) ∧ x.url = s.url)
      ∧ (∀ x, x ∈ dedupByUrl (allStepSources e) →
          (allStepSources e).find? (fun y => y.url == x.url) = some x) := by
  have hfull := loopOut_all_ok e ha hok
  have hth : (loopOut e).thrown = none := by rw [hfull]
  have hread : sigRead e.abortAt (loopOut e).k = false := by rw [ha]; rfl
  obtain ⟨hrun, _⟩ := run_decomp_synth e h1 h2 hth hread
  have hacc : (loopOut e).acc.flatMap (fun c => c.sources) = allStepSources e := by
    rw [show (loopOut e).acc = (ctxOut e).acc ++ fullItems e e.steps 0 from by rw [hfull]]
    rw [List.flatMap_append, ctx_acc_flat, fullItems_flat]
    rfl
  refine ⟨?_, ?_, ?_, ?_, ?_⟩
  · rw [hrun]
    apply List.mem_append_left
    apply List.mem_append_right
    rw [show (synthOut e).1 =
        [Ev.progress (contextStepsOf e + e.steps.length)
           (contextStepsOf e + e.steps.length + 1),
         Ev.stepStart (contextStepsOf e + e.steps.length) synthTitle,
         Ev.stepEnd (contextStepsOf e + e.steps.length) synthSummary,
         Ev.progress (contextStepsOf e + e.steps.length + 1)
           (contextStepsOf e + e.steps.length + 1),
         Ev.report { r with sources := dedupByUrl ((loopOut e).acc.flatMap (fun c => c.sources)) },
         Ev.done] from by simp [synthOut, synthPhase, hsy]]
    rw [hacc]
    simp
  · obtain ⟨extra, hsub, heq⟩ := dedupGo_append_sub (allStepSources e) []
    rw [dedupByUrl, heq]
    simpa using hsub
  · exact dedupGo_urls_nodup (allStepSources e) [] (by simp)
  · intro s hs
    exact dedupGo_covers (allStepSources e) [] s hs
  · intro x hx
    exact dedupGo_find (allStepSources e) [] x hx (by simp)

theorem c8_witness :
    Ev.report { rep0 with
        sources := dedupByUrl (allStepSources envC8) } ∈ runPOST envC8
      ∧ dedupByUrl (allStepSources envC8) =
          [⟨some "A", "a"⟩, ⟨none, "b"⟩, ⟨none, "c"⟩] :=
  ⟨(c8_report_source_dedup envC8 rep0 rfl (by decide) rfl (by decide) rfl).1,
   by decide⟩

theorem ctxErrMsg_ne_empty {c : CtxOutcome} {m : String}
    (hm : ctxErrMsg c = some m) : m ≠ "" := by
  cases c with
  | ok a => simp [ctxErrMsg] at hm
  | httpErr st =>
    simp [ctxErrMsg] at hm
    rw [← hm]
    exact append_ne_empty_left _ (by decide)
  | fetchThrow msg =>
    simp [ctxErrMsg] at hm
    rw [← hm]
    exact append_ne_empty_left _ (by decide)

/-- C10: if the context-analysis sub-call fails (fetch throws or non-OK
response) on a run where the abort signal never fires and the research
steps succeed, the run does not fail: a step-chunk and step-end for index
0 carry the error message, every research step still starts (at indices
1..n), no error event is emitted, and the error message is embedded as
the context-analysis text in each step's search and write prompts. -/
theorem c10_context_failure_nonfatal (e : Env) (m : String) (r : Report)
    (h1 : e.hasApiKey = true) (h2 : e.topic ≠ "")
    (hen : (e.includeContextAnalysis && (e.contextFilesLen != 0)) = true)
    (hm : ctxErrMsg e.ctx = some m)
    (ha : e.abortAt = none)
    (hok : ∀ q, q < e.steps.length → stepOkB (stepEnvOf e q) = true)
    (hsy : e.synth = CallOutcome.ok r) :
    (Ev.stepChunk 0 m ∈ runPOST e ∧ Ev.stepEnd 0 m ∈ runPOST e)
      ∧ (∀ i, i < e.steps.length →
          Ev.stepStart (1 + i) ((e.steps.getD i defaultStep).title) ∈ runPOST e)
      ∧ (∀ msg, Ev.error msg ∉ runPOST e)
      ∧ (∀ i, i < e.steps.length →
          Call.search i (searchPrompt e.topic e.context e.goals e.clarifyingAnswers m
            (e.steps.getD i defaultStep)) ∈ runCalls e
          ∧ hasSub m (searchPrompt e.topic e.context e.goals e.clarifyingAnswers m
              (e.steps.getD i defaultStep))
          ∧ Call.write i (writePrompt e.topic e.context e.goals e.clarifyingAnswers m
              (e.steps.getD i defaultStep) i (searchSources (stepEnvOf e i))) ∈ runCalls e
          ∧ hasSub m (writePrompt e.topic e.context e.goals e.clarifyingAnswers m
              (e.steps.getD i defaultStep) i (searchSources (stepEnvOf e i)))) := by
  have hfull := loopOut_all_ok e ha hok
  have hth : (loopOut e).thrown = none := by rw [hfull]
  have hread : sigRead e.abortAt (loopOut e).k = false := by rw [ha]; rfl
  obtain ⟨hrun, hcalls⟩ := run_decomp_synth e h1 h2 hth hread
  obtain ⟨hcar, hctxacc, hctxevs⟩ := ctx_err e (totalOf e) hen hm
  have hcar2 : (ctxOut e).car = m := hcar
  have hcs : contextStepsOf e = 1 := by simp [contextStepsOf, hen]
  have hne : m ≠ "" := ctxErrMsg_ne_empty hm
  refine ⟨⟨?_, ?_⟩, ?_, ?_, ?_⟩
  · rw [hrun]
    apply List.mem_append_left
    apply List.mem_append_left
    apply List.mem_append_left
    rw [show (ctxOut e).evs = (ctxPhase e (totalOf e)).evs from rfl, hctxevs]
    simp
  · rw [hrun]
    apply List.mem_append_left
    apply List.mem_append_left
    apply List.mem_append_left
    rw [show (ctxOut e).evs = (ctxPhase e (totalOf e)).evs from rfl, hctxevs]
    simp
  · intro i hi
    rw [hrun]
    apply List.mem_append_left
    apply List.mem_append_left
    apply List.mem_append_right
    rw [show (loopOut e).evs = fullSegs e (contextStepsOf e) (totalOf e) e.steps 0 from
      by rw [hfull], hcs]
    have := fullSegs_stepStart_mem e 1 (totalOf e) e.steps 0 i hi
    simpa using this
  · intro msg
    rw [hrun]
    intro hmem
    rcases List.mem_append.mp hmem with hmem1 | hcat
    · rcases List.mem_append.mp hmem1 with hmem2 | hsyn
      · rcases List.mem_append.mp hmem2 with hctx | hloop
        · have := ctx_isStepEv e (totalOf e) _ hctx
          simp [isStepEv] at this
        · have hl := loop_isStepEv e (contextStepsOf e) (totalOf e) (ctxOut e).car
            e.steps 0 0 (ctxOut e).acc _ hloop
          simp [isStepEv] at hl
      · rw [show (synthOut e).1 =
            [Ev.progress (contextStepsOf e + e.steps.length)
               (contextStepsOf e + e.steps.length + 1),
             Ev.stepStart (contextStepsOf e + e.steps.length) synthTitle,
             Ev.stepEnd (contextStepsOf e + e.steps.length) synthSummary,
             Ev.progress (contextStepsOf e + e.steps.length + 1)
               (contextStepsOf e + e.steps.length + 1),
             Ev.report { r with sources := dedupByUrl ((loopOut e).acc.flatMap (fun c => c.sources)) },
             Ev.done] from by simp [synthOut, synthPhase, hsy]] at hsyn
        simp at hsyn
    · rw [show (synthOut e).2.2 = none from by simp [synthOut, synthPhase, hsy]] at hcat
      simp [catchEvs] at hcat
  · intro i hi
    have hsearch : Call.search i (searchPrompt e.topic e.context e.goals
        e.clarifyingAnswers m (e.steps.getD i defaultStep)) ∈ runCalls e := by
      rw [hcalls]
      apply List.mem_append_left
      apply List.mem_append_right
      rw [show (loopOut e).calls = fullCalls e (ctxOut e).car e.steps 0 from
        by rw [hfull], hcar2]
      have := (fullCalls_mem e m e.steps 0 i hi).1
      simpa using this
    have hwrite : Call.write i (writePrompt e.topic e.context e.goals
        e.clarifyingAnswers m (e.steps.getD i defaultStep) i
        (searchSources (stepEnvOf e i))) ∈ runCalls e := by
      rw [hcalls]
      apply List.mem_append_left
      apply List.mem_append_right
      rw [show (loopOut e).calls = fullCalls e (ctxOut e).car e.steps 0 from
        by rw [hfull], hcar2]
      have := (fullCalls_mem e m e.steps 0 i hi).2
      simpa using this
    exact ⟨hsearch, searchPrompt_hasSub_car hne, hwrite, writePrompt_hasSub_car hne⟩

theorem c10_witness :
    Ev.stepChunk 0 "Context analysis error: Context analysis failed: Bad Gateway"
        ∈ runPOST envC10
      ∧ Ev.stepStart 1 "S1" ∈ runPOST envC10 :=
  ⟨((c10_context_failure_nonfatal envC10
      "Context analysis error: Context analysis failed: Bad Gateway" rep0
      rfl (by decide) rfl rfl rfl (by decide) rfl).1).1,
   by
    have := (c10_context_failure_nonfatal envC10
      "Context analysis error: Context analysis failed: Bad Gateway" rep0
      rfl (by decide) rfl rfl rfl (by decide) rfl).2.1 0 (by decide)
    simpa using this⟩

/-- C9 amended: on `step-end(index, summary)` the consumer overwrites
`stepResults[index].summary` with the event's summary whenever that
summary is non-empty; an empty event summary keeps the accumulated
chunk text (because the handler uses `summary || existing.summary`). -/
theorem c9_amended_stepEnd_overwrite (sr : Nat → Option ClientStep) (index : Nat)
    (s : String) (h : s ≠ "") :
    ((onStepEnd sr index (some s)) index).map ClientStep.summary = some s
      ∧ ((onStepEnd sr index (some "")) index).map ClientStep.summary =
          some ((sr index).getD (defaultClientStep index)).summary := by
  constructor
  · simp [onStepEnd, h]
  · simp [onStepEnd]

theorem c9_amended_witness :
    ("x" : String) ≠ ""
      ∧ ((onStepEnd srC9 0 (some "x")) 0).map ClientStep.summary = some "x" :=
  ⟨by decide, (c9_amended_stepEnd_overwrite srC9 0 "x" (by decide)).1⟩

theorem run_fire_mid (e : Env) (p t : Nat)
    (h1 : e.hasApiKey = true) (h2 : e.topic ≠ "")
    (ha : e.abortAt = some t)
    (hp : p < e.steps.length)
    (hok : ∀ q, q < p → stepOkB (stepEnvOf e q) = true)
    {srcs : List Source}
    (hse : (stepEnvOf e p).search = CallOutcome.ok srcs)
    (hlo : readsUpTo e p < t)
    (hhi : t ≤ readsUpTo e p + (stepEnvOf e p).deltas.length) :
    runPOST e = (ctxOut e).evs
      ++ fullSegs e (contextStepsOf e) (totalOf e) (e.steps.take p) 0
      ++ brokenSegEvs e (contextStepsOf e) (totalOf e) p (t - readsUpTo e p - 1)
           (e.steps.getD p defaultStep)
      ++ [Ev.done] := by
  have hlen : (e.steps.take p).length = p := by
    rw [List.length_take]
    omega
  have hdrop : e.steps.drop p = e.steps.getD p defaultStep :: e.steps.drop (p + 1) := by
    rw [List.drop_eq_getElem_cons hp]
    congr 1
    rw [List.getD_eq_getElem?_getD, List.getElem?_eq_getElem hp]
    rfl
  have hsplit : e.steps = e.steps.take p
      ++ (e.steps.getD p defaultStep :: e.steps.drop (p + 1)) := by
    rw [← hdrop, List.take_append_drop]
  have hL := congrArg (fun l => loopPhase e (contextStepsOf e) (totalOf e)
    (ctxOut e).car l 0 0 (ctxOut e).acc) hsplit
  simp only at hL
  have hpre := loop_ok_front e (contextStepsOf e) (totalOf e) (ctxOut e).car
    (e.steps.take p) (e.steps.getD p defaultStep :: e.steps.drop (p + 1)) 0 0
    (ctxOut e).acc
    (by
      intro q hq
      rw [hlen] at hq
      rw [Nat.zero_add]
      exact hok q hq)
    (by
      intro kq hkq
      rw [Nat.zero_add] at hkq
      rw [ha]
      simp [sigRead]
      have : segReads e (e.steps.take p) 0 = readsUpTo e p := rfl
      omega)
  have hfire := loop_fire_step e (contextStepsOf e) (totalOf e) (ctxOut e).car
    (e.steps.getD p defaultStep) (e.steps.drop (p + 1)) (0 + (e.steps.take p).length)
    (0 + segReads e (e.steps.take p) 0) t
    ((ctxOut e).acc ++ fullItems e (e.steps.take p) 0) ha
    (by
      simp only [hlen, Nat.zero_add]
      exact hse)
    (by
      have : segReads e (e.steps.take p) 0 = readsUpTo e p := rfl
      omega)
    (by
      simp only [hlen, Nat.zero_add]
      have : segReads e (e.steps.take p) 0 = readsUpTo e p := rfl
      omega)
  obtain ⟨hfevs, hfcalls, hfacc, hfth, hfsig⟩ := hfire
  have hloopOut : loopOut e = loopPhase e (contextStepsOf e) (totalOf e)
      (ctxOut e).car (e.steps.take p
        ++ (e.steps.getD p defaultStep :: e.steps.drop (p + 1))) 0 0
      (ctxOut e).acc := hL
  rw [hpre] at hloopOut
  have hth : (loopOut e).thrown = none := by
    rw [hloopOut]
    exact hfth
  have hread : sigRead e.abortAt (loopOut e).k = true := by
    rw [hloopOut]
    exact hfsig
  obtain ⟨hrun, _⟩ := run_decomp_aborted e h1 h2 hth hread
  rw [hrun]
  have hevs : (loopOut e).evs = fullSegs e (contextStepsOf e) (totalOf e)
      (e.steps.take p) 0 ++ (loopPhase e (contextStepsOf e) (totalOf e) (ctxOut e).car
        (e.steps.getD p defaultStep :: e.steps.drop (p + 1))
        (0 + (e.steps.take p).length) (0 + segReads e (e.steps.take p) 0)
        ((ctxOut e).acc ++ fullItems e (e.steps.take p) 0)).evs := by
    rw [hloopOut]
  rw [hevs, hfevs]
  have harith : t - (0 + segReads e (e.steps.take p) 0 + 1) = t - readsUpTo e p - 1 := by
    have : segReads e (e.steps.take p) 0 = readsUpTo e p := rfl
    omega
  rw [harith]
  have hidx : 0 + (e.steps.take p).length = p := by
    rw [hlen, Nat.zero_add]
  rw [hidx]
  simp [brokenSegEvs, searchSources, hse, List.append_assoc]

/-- C4 amended: if the abort signal fires during step `p`'s
token-streaming loop, the executor stops iterating immediately — only the
deltas read before the abort are accumulated and emitted — but it still
emits a step-end event for that step carrying the partially accumulated
text (after the optional step-usage event); the orchestrator then
proceeds directly to the final done without starting further steps. -/
theorem c4_amended_stepEnd_on_abort (e : Env) (p t : Nat)
    (h1 : e.hasApiKey = true) (h2 : e.topic ≠ "")
    (ha : e.abortAt = some t)
    (hp : p < e.steps.length)
    (hok : ∀ q, q < p → stepOkB (stepEnvOf e q) = true)
    {srcs : List Source}
    (hse : (stepEnvOf e p).search = CallOutcome.ok srcs)
    (hlo : readsUpTo e p < t)
    (hhi : t ≤ readsUpTo e p + (stepEnvOf e p).deltas.length) :
    runPOST e = (ctxOut e).evs
      ++ fullSegs e (contextStepsOf e) (totalOf e) (e.steps.take p) 0
      ++ brokenSegEvs e (contextStepsOf e) (totalOf e) p (t - readsUpTo e p - 1)
           (e.steps.getD p defaultStep)
      ++ [Ev.done] :=
  run_fire_mid e p t h1 h2 ha hp hok hse hlo hhi

theorem c4_amended_witness :
    runPOST envC4 = (ctxOut envC4).evs
      ++ fullSegs envC4 (contextStepsOf envC4) (totalOf envC4) (envC4.steps.take 0) 0
      ++ brokenSegEvs envC4 (contextStepsOf envC4) (totalOf envC4) 0
           (2 - readsUpTo envC4 0 - 1) (envC4.steps.getD 0 defaultStep)
      ++ [Ev.done] :=
  c4_amended_stepEnd_on_abort envC4 0 2 rfl (by decide) rfl (by decide)
    (fun q hq => absurd hq (Nat.not_lt_zero q)) rfl (by decide) (by decide)

theorem stepOk_search {se : StepEnv} (h : stepOkB se = true) :
    ∃ srcs, se.search = CallOutcome.ok srcs := by
  cases hse : se.search with
  | ok srcs => exact ⟨srcs, rfl⟩
  | abortErr => simp [stepOkB, hse] at h
  | err m => simp [stepOkB, hse] at h

theorem segReads_append (e : Env) :
    ∀ (a b : List Step) (i : Nat),
      segReads e (a ++ b) i = segReads e a i + segReads e b (i + a.length) := by
  intro a
  induction a with
  | nil => intro b i; simp [segReads]
  | cons s rest ih =>
    intro b i
    rw [List.cons_append]
    rw [show segReads e (s :: (rest ++ b)) i =
        readCost (stepEnvOf e i) + segReads e (rest ++ b) (i + 1) from rfl]
    rw [ih b (i + 1)]
    rw [show segReads e (s :: rest) i =
        readCost (stepEnvOf e i) + segReads e rest (i + 1) from rfl]
    have harg : i + 1 + rest.length = i + (s :: rest).length := by
      simp
      omega
    rw [harg]
    omega

theorem readsUpTo_succ (e : Env) (p : Nat) (hp : p < e.steps.length) :
    readsUpTo e (p + 1) = readsUpTo e p + readCost (stepEnvOf e p) := by
  show segReads e (e.steps.take (p + 1)) 0 = segReads e (e.steps.take p) 0 + _
  rw [List.take_succ, List.getElem?_eq_getElem hp]
  rw [show (some e.steps[p]).toList = [e.steps[p]] from rfl]
  rw [segReads_append]
  rw [show segReads e [e.steps[p]] (0 + (e.steps.take p).length) =
      readCost (stepEnvOf e (0 + (e.steps.take p).length)) + 0 from rfl]
  have hlen : (e.steps.take p).length = p := by
    rw [List.length_take]
    omega
  rw [hlen]
  simp

theorem brokenSegEvs_idx (e : Env) (cs total p m : Nat) (step : Step) :
    ∀ ev ∈ brokenSegEvs e cs total p m step, ∀ j, evIdx ev = some j → j = cs + p := by
  intro ev hev j hj
  simp only [brokenSegEvs, List.cons_append, List.nil_append] at hev
  simp at hev
  rcases hev with rfl | rfl | rfl | hch | hu | rfl
  · simp [evIdx] at hj
  · simp [evIdx] at hj; omega
  · simp [evIdx] at hj; omega
  · obtain ⟨d, _, rfl⟩ := List.mem_map.mp (List.take_subset _ _ hch)
    simp [evIdx] at hj
    omega
  · exact usageEvs_idx _ _ ev hu j hj
  · simp [evIdx] at hj; omega

theorem brokenSegEvs_isStepEv (e : Env) (cs total p m : Nat) (step : Step) :
    ∀ ev ∈ brokenSegEvs e cs total p m step, isStepEv ev = true := by
  intro ev hev
  simp only [brokenSegEvs, List.cons_append, List.nil_append] at hev
  simp at hev
  rcases hev with rfl | rfl | rfl | hch | hu | rfl
  · rfl
  · rfl
  · rfl
  · obtain ⟨d, _, rfl⟩ := List.mem_map.mp (List.take_subset _ _ hch)
    rfl
  · exact usageEvs_isStepEv _ _ ev hu
  · rfl

theorem loop_top_aborted (e : Env) (cs total : Nat) (car : String)
    (post : List Step) (i k : Nat) (acc : List Collected)
    (hs : sigRead e.abortAt k = true) :
    (loopPhase e cs total car post i k acc).evs = []
      ∧ (loopPhase e cs total car post i k acc).thrown = none
      ∧ sigRead e.abortAt (loopPhase e cs total car post i k acc).k = true := by
  cases post with
  | nil =>
    refine ⟨by simp [loopPhase], by simp [loopPhase], ?_⟩
    rw [show (loopPhase e cs total car [] i k acc).k = k from by simp [loopPhase]]
    exact hs
  | cons step post =>
    refine ⟨by simp [loopPhase, hs], by simp [loopPhase, hs], ?_⟩
    rw [show (loopPhase e cs total car (step :: post) i k acc).k = k + 1 from
      by simp [loopPhase, hs]]
    exact sigRead_mono hs (Nat.le_succ k)

/-- C7: if the abort signal fires after step `kk` has started but before
step `kk + 1` starts, then no step-start event with index greater than
`contextSteps + kk` is ever emitted, no report event is emitted, and the
stream ends with done. -/
theorem c7_abort_short_circuit (e : Env) (kk t : Nat)
    (h1 : e.hasApiKey = true) (h2 : e.topic ≠ "")
    (ha : e.abortAt = some t)
    (hk1 : kk + 1 < e.steps.length)
    (hok : ∀ q, q ≤ kk → stepOkB (stepEnvOf e q) = true)
    (hlo : readsUpTo e kk < t)
    (hhi : t ≤ readsUpTo e (kk + 1)) :
    (∀ j st, Ev.stepStart j st ∈ runPOST e → j ≤ contextStepsOf e + kk)
      ∧ (∀ r : Report, Ev.report r ∉ runPOST e)
      ∧ (runPOST e).getLast? = some Ev.done := by
  have hkk : kk < e.steps.length := by omega
  have hsucc := readsUpTo_succ e kk hkk
  have hcost : readCost (stepEnvOf e kk) = 1 + (stepEnvOf e kk).deltas.length := rfl
  by_cases hmid : t ≤ readsUpTo e kk + (stepEnvOf e kk).deltas.length
  · obtain ⟨srcs, hse⟩ := stepOk_search (hok kk (Nat.le_refl kk))
    have hrun := run_fire_mid e kk t h1 h2 ha hkk (fun q hq => hok q (by omega))
      hse hlo hmid
    have hlen : (e.steps.take kk).length = kk := by
      rw [List.length_take]
      omega
    refine ⟨?_, ?_, ?_⟩
    · intro j st hmem
      rw [hrun] at hmem
      rcases List.mem_append.mp hmem with hm1 | hdone
      · rcases List.mem_append.mp hm1 with hm2 | hpart
        · rcases List.mem_append.mp hm2 with hctx | hfull
          · have := ctx_idx0 e (totalOf e) _ hctx j rfl
            omega
          · have := (fullSegs_idx e (contextStepsOf e) (totalOf e) (e.steps.take kk) 0
              _ hfull j rfl).2
            rw [hlen] at this
            omega
        · have := brokenSegEvs_idx e (contextStepsOf e) (totalOf e) kk
            (t - readsUpTo e kk - 1) (e.steps.getD kk defaultStep) _ hpart j rfl
          omega
      · simp at hdone
    · intro r hmem
      rw [hrun] at hmem
      rcases List.mem_append.mp hmem with hm1 | hdone
      · rcases List.mem_append.mp hm1 with hm2 | hpart
        · rcases List.mem_append.mp hm2 with hctx | hfull
          · have := ctx_isStepEv e (totalOf e) _ hctx
            simp [isStepEv] at this
          · have := fullSegs_isStepEv e (contextStepsOf e) (totalOf e)
              (e.steps.take kk) 0 _ hfull
            simp [isStepEv] at this
        · have := brokenSegEvs_isStepEv e (contextStepsOf e) (totalOf e) kk
            (t - readsUpTo e kk - 1) (e.steps.getD kk defaultStep) _ hpart
          simp [isStepEv] at this
      · simp at hdone
    · rw [hrun]
      exact List.getLast?_concat _
  · have ht : t = readsUpTo e (kk + 1) := by omega
    have hlen1 : (e.steps.take (kk + 1)).length = kk + 1 := by
      rw [List.length_take]
      omega
    have hsplit : e.steps = e.steps.take (kk + 1) ++ e.steps.drop (kk + 1) :=
      (List.take_append_drop _ _).symm
    have hL := congrArg (fun l => loopPhase e (contextStepsOf e) (totalOf e)
      (ctxOut e).car l 0 0 (ctxOut e).acc) hsplit
    simp only at hL
    have hpre := loop_ok_front e (contextStepsOf e) (totalOf e) (ctxOut e).car
      (e.steps.take (kk + 1)) (e.steps.drop (kk + 1)) 0 0 (ctxOut e).acc
      (by
        intro q hq
        rw [hlen1] at hq
        rw [Nat.zero_add]
        exact hok q (by omega))
      (by
        intro kq hkq
        rw [Nat.zero_add] at hkq
        rw [ha]
        simp [sigRead]
        have : segReads e (e.steps.take (kk + 1)) 0 = readsUpTo e (kk + 1) := rfl
        omega)
    have htop : sigRead e.abortAt (0 + segReads e (e.steps.take (kk + 1)) 0) = true := by
      rw [ha]
      simp [sigRead]
      have : segReads e (e.steps.take (kk + 1)) 0 = readsUpTo e (kk + 1) := rfl
      omega
    obtain ⟨hievs, hith, hisig⟩ := loop_top_aborted e (contextStepsOf e) (totalOf e)
      (ctxOut e).car (e.steps.drop (kk + 1)) (0 + (e.steps.take (kk + 1)).length)
      (0 + segReads e (e.steps.take (kk + 1)) 0)
      ((ctxOut e).acc ++ fullItems e (e.steps.take (kk + 1)) 0) htop
    have hloopOut : loopOut e = loopPhase e (contextStepsOf e) (totalOf e)
        (ctxOut e).car (e.steps.take (kk + 1) ++ e.steps.drop (kk + 1)) 0 0
        (ctxOut e).acc := hL
    rw [hpre] at hloopOut
    have hth : (loopOut e).thrown = none := by
      rw [hloopOut]
      exact hith
    have hread : sigRead e.abortAt (loopOut e).k = true := by
      rw [hloopOut]
      exact hisig
    obtain ⟨hrun, _⟩ := run_decomp_aborted e h1 h2 hth hread
    have hevs : (loopOut e).evs =
        fullSegs e (contextStepsOf e) (totalOf e) (e.steps.take (kk + 1)) 0 := by
      rw [hloopOut]
      show fullSegs e (contextStepsOf e) (totalOf e) (e.steps.take (kk + 1)) 0 ++ _ = _
      rw [hievs, List.append_nil]
    rw [hevs] at hrun
    refine ⟨?_, ?_, ?_⟩
    · intro j st hmem
      rw [hrun] at hmem
      rcases List.mem_append.mp hmem with hm1 | hdone
      · rcases List.mem_append.mp hm1 with hctx | hfull
        · have := ctx_idx0 e (totalOf e) _ hctx j rfl
          omega
        · have := (fullSegs_idx e (contextStepsOf e) (totalOf e)
            (e.steps.take (kk + 1)) 0 _ hfull j rfl).2
          rw [hlen1] at this
          omega
      · simp at hdone
    · intro r hmem
      rw [hrun] at hmem
      rcases List.mem_append.mp hmem with hm1 | hdone
      · rcases List.mem_append.mp hm1 with hctx | hfull
        · have := ctx_isStepEv e (totalOf e) _ hctx
          simp [isStepEv] at this
        · have := fullSegs_isStepEv e (contextStepsOf e) (totalOf e)
            (e.steps.take (kk + 1)) 0 _ hfull
          simp [isStepEv] at this
      · simp at hdone
    · rw [hrun]
      exact List.getLast?_concat _

theorem c3_amended_witness :
    (0 : Nat) ≠ finalIdx envC5
      ∧ Ev.stepEnd 0 "a" ∈ runPOST envC5
      ∧ "a" = chunksConcat (runPOST envC5) 0 :=
  ⟨by decide, by decide,
   c3_amended_chunk_reassembly envC5 0 "a" (by decide) (by decide)⟩

theorem c7_witness :
    Ev.stepStart 1 "S2" ∉ runPOST envC7
      ∧ (runPOST envC7).getLast? = some Ev.done := by
  have h := c7_abort_short_circuit envC7 0 2 rfl (by decide) rfl (by decide)
    (fun q hq => by
      have hq0 : q = 0 := by omega
      rw [hq0]
      decide)
    (by decide) (by decide)
  refine ⟨fun hmem => ?_, h.2.2⟩
  have hb := h.1 1 "S2" hmem
  have hcs : contextStepsOf envC7 = 0 := by decide
  omega

end Qual
